import Mathlib

/-!
ccache: command-line serialisation and compiler resolution.

A shallow embedding of `Win32Util::argv_to_string` and `Win32Util::add_exe_suffix`
(src/src/Win32Util.cpp) together with spec-level models of the argument splitter, the compiler
resolver and the compiler classifier that the unit tests in src/unittest/test_ccache.cpp
exercise.

Conventions.
* A C string (`const char*`) is the list of characters found at the pointer.  Scanning stops at
  the first NUL character or at the end of the list, whichever comes first, so a well-formed
  C string is a list without NUL.
* A null-terminated `argv` array is the list of its non-null entries; reading the entry after
  the last one yields the null pointer (`none`).
* `int bs` is a 32-bit two's-complement integer: every arithmetic step on it is reduced by
  `wrap_int`, so a count that passes `2^31 - 1` becomes negative, as in the compiled code.
-/

namespace Win32Util

/-- The string terminator `'\0'`. -/
def NUL : Char := Char.ofNat 0

/-- The value a 32-bit `int` holds after an arithmetic step whose exact result is `x`:
`x` reduced modulo `2^32` into the range from `-2^31` to `2^31 - 1`. -/
def wrap_int (x : Int) : Int := (x + 2147483648) % 4294967296 - 2147483648

/-- The statement `result += '\\'` executed `count` times. -/
def append_backslashes (result : List Char) : Nat → List Char
  | 0 => result
  | count + 1 => append_backslashes (result ++ ['\\']) count

/-- The loop `while (bs > 0) { result += '\\'; --bs; }` (Win32Util.cpp lines 89-92 and 97-100).
When `bs` is positive the body runs `bs` times and leaves `bs = 0`; otherwise it does not run
and `bs` keeps its value.  The function returns `result` and `bs` after the loop. -/
def emit_backslashes (result : List Char) (bs : Int) : List Char × Int :=
  if bs > 0 then (append_backslashes result bs.toNat, 0) else (result, bs)

/-- The loop `for (size_t j = 0; arg[j]; ++j) switch (arg[j]) ...` (lines 75-95).  The first
argument is the text at `arg + j`; the function returns `result` and `bs` at loop exit. -/
def scan_arg (escape_backslashes : Bool) : List Char → Int → List Char → List Char × Int
  | [], bs, result => (result, bs)
  | c :: rest, bs, result =>
    if c = NUL then
      (result, bs)
    else if c = '\\' ∧ escape_backslashes = false then
      -- case '\\': if (!escape_backslashes) { ++bs; break; }
      scan_arg escape_backslashes rest (wrap_int (bs + 1)) result
    else
      -- case '\\' falls through to case '"': bs = (bs << 1) + 1; then falls through to default
      let bs1 := if c = '\\' ∨ c = '"' then wrap_int (wrap_int (2 * bs) + 1) else bs
      -- default: flush the pending run, then result += arg[j]
      let flushed := emit_backslashes result bs1
      scan_arg escape_backslashes rest flushed.2 (flushed.1 ++ [c])

/-- One iteration of the `do` body (lines 73-101): opening quote, the scan of `arg`,
`bs <<= 1` and the flush of the trailing run, and the closing quote followed by a space. -/
def encode_arg (escape_backslashes : Bool) (arg : List Char) (result : List Char) : List Char :=
  let r := scan_arg escape_backslashes arg 0 (result ++ ['"'])
  (emit_backslashes r.1 (wrap_int (2 * r.2))).1 ++ ['"', ' ']

/-- The `do { ... } while ((arg = argv[i++]));` loop (lines 72-102).  `rest` is the part of
`argv` from index `i` up to the terminating null entry. -/
def arg_loop (escape_backslashes : Bool) : List Char → List (List Char) → List Char → List Char
  | arg, [], result => encode_arg escape_backslashes arg result
  | arg, next :: rest, result =>
    arg_loop escape_backslashes next rest (encode_arg escape_backslashes arg result)

/-- `Win32Util::argv_to_string` (lines 63-106); `pfx` is the parameter `prefix`.  The result
is `none` when the first `arg` is the null pointer (empty `pfx` and `argv[0]` null), where the
source dereferences it.  The `do` body has run at least once when line 104 is reached, so
`result` is not empty there (`arg_loop_ne_nil`) and `resize(length - 1)` drops its last
character. -/
def argv_to_string (argv : List (List Char)) (pfx : List Char) (escape_backslashes : Bool) :
    Option (List Char) :=
  -- const char* arg = prefix.empty() ? argv[i++] : prefix.c_str();
  let start : Option (List Char) × List (List Char) :=
    if pfx.isEmpty then (argv.head?, argv.tail) else (some pfx, argv)
  match start with
  | (none, _) => none
  | (some arg, rest) =>
    -- result.resize(result.length() - 1)
    some (arg_loop escape_backslashes arg rest []).dropLast

/-- The quoted form of one argument: what one `do` iteration appends, without the separator. -/
def quoted (e : Bool) (arg : List Char) : List Char :=
  '"' :: ((scan_arg e arg 0 []).1
    ++ List.replicate (wrap_int (2 * (scan_arg e arg 0 []).2)).toNat '\\' ++ ['"'])

/-- The arguments on which the counter `bs` of `argv_to_string` (with
`escape_backslashes = false`) stays within `int`: every run of consecutive backslashes is
shorter than `2^31`, and a run that is directly followed by a double quote or that ends the
argument is shorter than `2^30`.  `pending` is the length of the run read so far. -/
def runs_fit : List Char → Nat → Bool
  | [], pending => decide (pending < 1073741824)
  | c :: rest, pending =>
    if c = NUL then decide (pending < 1073741824)
    else if c = '\\' then decide (pending + 1 < 2147483648) && runs_fit rest (pending + 1)
    else if c = '"' then decide (pending < 1073741824) && runs_fit rest 0
    else runs_fit rest 0

/-- The scan of `scan_arg` computed with an unbounded counter: a device of the proofs, equal
to `scan_arg` on the arguments whose runs fit (`scan_arg_eq_unbounded`). -/
def scan_unbounded (e : Bool) : List Char → Nat → List Char → List Char × Nat
  | [], bs, result => (result, bs)
  | c :: rest, bs, result =>
    if c = NUL then
      (result, bs)
    else if c = '\\' ∧ e = false then
      scan_unbounded e rest (bs + 1) result
    else
      let bs1 := if c = '\\' ∨ c = '"' then (bs <<< 1) + 1 else bs
      scan_unbounded e rest 0 (append_backslashes result bs1 ++ [c])

/-- Text written by the unbounded scan after the opening quote of one argument, up to and
including its closing quote, when `arg` is scanned starting with `bs` pending backslashes. -/
def tail_text (e : Bool) (arg : List Char) (bs : Nat) : List Char :=
  let r := scan_unbounded e arg bs []
  r.1 ++ List.replicate (r.2 <<< 1) '\\' ++ ['"']

/-- The quoted form of one argument computed with the unbounded counter. -/
def quoted_unbounded (e : Bool) (arg : List Char) : List Char :=
  '"' :: tail_text e arg 0

/-- The naive character map of the specification for `escape_backslashes = true`: every
backslash and every double quote is preceded by one added backslash, every other character is
copied. -/
def escape_all (arg : List Char) : List Char :=
  arg.flatMap (fun c => if c = '\\' ∨ c = '"' then ['\\', c] else [c])

/-- Length of the maximal run of backslashes at the end of a text. -/
def trailing_backslashes (text : List Char) : Nat :=
  (text.reverse.takeWhile (fun c => c = '\\')).length

end Win32Util

/-! ### The reference command-line parser -/

namespace CommandLine

/-- Modelled from the spec: the state of the platform command-line parser, which is not part
of the repository.  `args` are the completed arguments, `cur` is the text of the argument
being read, `started` tells whether an argument is being read (so that `""` yields an empty
argument), `in_quotes` is the quoted mode and `bs` the length of the backslash run just read
and not yet interpreted. -/
structure ParseState where
  args : List (List Char)
  cur : List Char
  started : Bool
  in_quotes : Bool
  bs : Nat
deriving DecidableEq, Repr

/-- Modelled from the spec: one character of the platform command-line parser.  A backslash
extends the pending run.  At a double quote a run of `2n` backslashes yields `n` backslashes
and the quote toggles quoted mode; a run of `2n+1` backslashes yields `n` backslashes and a
literal double quote.  At any other character the pending backslashes are literal; a space
outside quotes ends the current argument, every other character is part of it. -/
def parse_step (s : ParseState) (c : Char) : ParseState :=
  if c = '\\' then
    { s with started := true, bs := s.bs + 1 }
  else if c = '"' then
    if s.bs % 2 = 0 then
      { s with cur := s.cur ++ List.replicate (s.bs / 2) '\\', started := true,
               in_quotes := !s.in_quotes, bs := 0 }
    else
      { s with cur := s.cur ++ List.replicate (s.bs / 2) '\\' ++ ['"'], started := true,
               bs := 0 }
  else if c = ' ' ∧ s.in_quotes = false then
    if s.started then
      { args := s.args ++ [s.cur ++ List.replicate s.bs '\\'], cur := [], started := false,
        in_quotes := false, bs := 0 }
    else
      s
  else
    { s with cur := s.cur ++ List.replicate s.bs '\\' ++ [c], started := true, bs := 0 }

/-- Modelled from the spec: the end of the command line closes the argument being read; a
pending backslash run is literal there. -/
def parse_finish (s : ParseState) : List (List Char) :=
  if s.started then s.args ++ [s.cur ++ List.replicate s.bs '\\'] else s.args

/-- Modelled from the spec: the reference platform parser, from a command line to its argument
vector. -/
def parse_command_line (cmd : List Char) : List (List Char) :=
  parse_finish (cmd.foldl parse_step ⟨[], [], false, false, 0⟩)

/-- State of a reader of the form written with `escape_backslashes = true`: the completed
arguments, the text of the argument being read, the quoted mode, and whether the previous
character was an escaping backslash. -/
structure UnescapeState where
  args : List (List Char)
  cur : List Char
  in_quotes : Bool
  escaped : Bool
deriving DecidableEq, Repr

/-- One character of the reader of the `escape_backslashes = true` form: a backslash escapes
the next character, an unescaped double quote opens an argument or closes and completes it,
and characters between arguments are skipped. -/
def unescape_step (s : UnescapeState) (c : Char) : UnescapeState :=
  if s.escaped then
    { s with cur := s.cur ++ [c], escaped := false }
  else if c = '\\' then
    { s with escaped := true }
  else if c = '"' then
    if s.in_quotes then
      { args := s.args ++ [s.cur], cur := [], in_quotes := false, escaped := false }
    else
      { s with in_quotes := true }
  else if s.in_quotes then
    { s with cur := s.cur ++ [c] }
  else
    s

/-- The reader of the `escape_backslashes = true` form, from a command line to its argument
vector. -/
def unescape_command_line (cmd : List Char) : List (List Char) :=
  (cmd.foldl unescape_step ⟨[], [], false, false⟩).args

end CommandLine

/-! ### Argument splitter and compiler resolver -/

namespace ccache

/-- Modelled from the spec: the canonical tool name of section 6, the constant used to detect
masquerading and self-loops; the spec's example and the unit tests use `ccache`. -/
def canonical_name : List Char := "ccache".toList

/-- Modelled from the spec: the path separator of sections 4.1 and 4.2, which the spec does not
enumerate; the paths of the unit tests are separated by `/`. -/
def is_dir_separator (c : Char) : Bool := c = '/'

/-- Modelled from the spec: "contains a path separator". -/
def has_path_separator (path : List Char) : Bool := path.any is_dir_separator

/-- Modelled from the spec: the basename of a path, the text after its last path separator. -/
def base_name (path : List Char) : List Char :=
  (path.reverse.takeWhile (fun c => !is_dir_separator c)).reverse

/-- Modelled from the spec: the shape `key=value` of a configuration setting of section 4.1,
an `=` is present and the left-hand side is not an absolute or relative path. -/
def is_config_setting (token : List Char) : Bool :=
  token.contains '=' && !has_path_separator (token.takeWhile (fun c => c != '='))

/-- Modelled from the spec: `SplitResult` of section 3. -/
structure SplitResult where
  masquerading_as_compiler : Bool
  configuration_settings : List (List Char)
  compiler_invocation : List (List Char)
deriving DecidableEq, Repr

/-- Modelled from the spec: the scan of `argv[1:]` of section 4.1, whose code (`split_argv`) is
not among the sources.  Walk left to right, append matching tokens to the configuration
settings and continue; stop at the first non-matching token, which with everything after it
is the compiler invocation.  The result is (settings, invocation). -/
def scan_settings : List (List Char) → List (List Char) × List (List Char)
  | [] => ([], [])
  | token :: rest =>
    if is_config_setting token then
      ((token :: (scan_settings rest).1), (scan_settings rest).2)
    else
      ([], token :: rest)

/-- Modelled from the spec: `split` of section 4.1 (`split_argv`, exercised by
test_ccache.cpp lines 60-108; its code is not among the sources). -/
def split (argv : List (List Char)) : SplitResult :=
  match argv with
  | [] => ⟨true, [], []⟩
  | first :: rest =>
    if base_name first = canonical_name then
      ⟨false, (scan_settings rest).1, (scan_settings rest).2⟩
    else
      ⟨true, [], first :: rest⟩

/-- Modelled from the spec: the error kinds of section 7. -/
inductive ResolveError
  | SelfLoopError
  | CompilerNotFoundError
deriving DecidableEq, Repr

deriving instance DecidableEq for Except

/-- Modelled from the spec: `resolve` of section 4.2 (`find_compiler`, exercised by
test_ccache.cpp lines 41-58 and 110-163; its code is not among the sources).  `search` is the
executable-search capability, whose empty result means "not found".  An empty invocation is
returned unchanged. -/
def resolve (invocation : List (List Char)) (configured_compiler : Option (List Char))
    (masquerading : Bool) (search : List Char → List Char) :
    Except ResolveError (List (List Char)) :=
  match invocation with
  | [] => .ok []
  | first :: args =>
    -- step 1: the candidate is the configured compiler if set and non-empty
    match configured_compiler.filter (fun c => !c.isEmpty) with
    | some candidate =>
      -- step 2: a bare configured name is searched, a path is used verbatim; no error checks
      .ok ((if has_path_separator candidate then candidate else search candidate) :: args)
    | none =>
      if masquerading then
        -- step 3: only the basename is trusted; no error checks
        .ok (search (base_name first) :: args)
      else if has_path_separator first then
        -- step 4: an explicit path is trusted verbatim
        .ok (first :: args)
      else
        -- step 4: a bare name is searched and checked
        if search first = canonical_name then
          .error .SelfLoopError
        else if search first = [] then
          .error .CompilerNotFoundError
        else
          .ok (search first :: args)

/-- The search stub of the unit tests (test_ccache.cpp lines 47-51): the given string when
there is one, `resolved_` followed by the name otherwise. -/
def find_executable_stub (find_executable_return_string : Option (List Char))
    (s : List Char) : List Char :=
  match find_executable_return_string with
  | some r => r
  | none => "resolved_".toList ++ s

/-- The test helper (test_ccache.cpp lines 41-58) on a one-element invocation. -/
def helper (masquerading_as_compiler : Bool) (args config_compiler : String)
    (find_executable_return_string : Option String) :
    Except ResolveError (List (List Char)) :=
  resolve [args.toList] (some config_compiler.toList) masquerading_as_compiler
    (find_executable_stub (find_executable_return_string.map String.toList))

end ccache

/-! ### Compiler classifier -/

namespace util

/-- Modelled from the spec: `util::to_lowercase` (util/string.hpp, not among the sources), the
case normalisation of the classifier and of `add_exe_suffix`: every character is lower-cased. -/
def to_lowercase (s : List Char) : List Char := s.map Char.toLower

end util

namespace ccache

/-- Modelled from the spec: `CompilerFamily` of section 3. -/
inductive CompilerFamily
  | gcc
  | clang
  | nvcc
  | other
deriving DecidableEq, Repr

/-- Modelled from the spec: "contains" of section 4.3, `needle` occurs in `text` as a
contiguous run of characters. -/
def contains_text (needle text : List Char) : Bool :=
  text.tails.any (fun t => needle.isPrefixOf t)

/-- Modelled from the spec: a version suffix as in `gcc-4.8` and `g++-9`, a dash followed by
digits and dots. -/
def is_version_suffix : List Char → Bool
  | '-' :: version => !version.isEmpty && version.all (fun c => c.isDigit || c == '.')
  | _ => false

/-- Modelled from the spec: the GCC-style pattern of section 4.3: exactly `gcc` or `g++`, or
`gcc` or `g++` followed by a version suffix, or `gcc` anywhere in the name. -/
def is_gcc_style (name : List Char) : Bool :=
  name == "gcc".toList || name == "g++".toList
    || ("gcc".toList.isPrefixOf name && is_version_suffix (name.drop 3))
    || ("g++".toList.isPrefixOf name && is_version_suffix (name.drop 3))
    || contains_text "gcc".toList name

/-- Modelled from the spec: the ordered pattern rules of section 4.3 on a case-normalised
basename; `none` when no rule matches (as for `cc` and `c++`). -/
def classify_name (name : List Char) : Option CompilerFamily :=
  if contains_text "clang".toList name then some .clang
  else if is_gcc_style name then some .gcc
  else if contains_text "nvcc".toList name then some .nvcc
  else none

/-- Modelled from the spec: following `read_link` to the final target with at most `hops`
further hops; `none` on a longer (or cyclic) chain. -/
def follow_links (read_link : List Char → Option (List Char)) : Nat → List Char →
    Option (List Char)
  | 0, path => if (read_link path).isNone then some path else none
  | hops + 1, path =>
    match read_link path with
    | none => some path
    | some target => follow_links read_link hops target

/-- Modelled from the spec: `classify` of section 4.3 (`guess_compiler`, exercised by
test_ccache.cpp lines 165-203; its code is not among the sources).  The spec fixes no value
for the bound on the number of hops, here `max_hops`. -/
def classify (path : List Char) (read_link : List Char → Option (List Char))
    (max_hops : Nat) : CompilerFamily :=
  match classify_name (util.to_lowercase (base_name path)) with
  | some family => family
  | none =>
    match read_link path with
    | none => .other
    | some target =>
      match follow_links read_link max_hops target with
      | none => .other
      | some final => (classify_name (util.to_lowercase (base_name final))).getD .other

end ccache

/-! ### `Win32Util::add_exe_suffix` -/

namespace Util

/-- Modelled from the spec: the directory separators seen by `Util::get_extension` on the
platform of `Win32Util`, the slash and the backslash. -/
def is_dir_separator (c : Char) : Bool := c = '/' || c = '\\'

/-- Modelled from the spec: the scan of `Util::get_extension` from the end of the path.  The
first argument is the part of the path not yet visited, last character first; `suffix` is the
part already visited. -/
def extension_scan : List Char → List Char → List Char
  | [], _ => []
  | c :: before, suffix =>
    if c = '.' then c :: suffix
    else if is_dir_separator c then []
    else extension_scan before (c :: suffix)

/-- Modelled from the spec: `Util::get_extension` (Util.hpp, not among the sources), the suffix
starting at the last dot after the last directory separator, empty when there is none. -/
def get_extension (path : List Char) : List Char :=
  extension_scan path.reverse []

end Util

namespace Win32Util

/-- `Win32Util::add_exe_suffix` (Win32Util.cpp lines 30-39). -/
def add_exe_suffix (path : List Char) : List Char :=
  let ext := util.to_lowercase (Util.get_extension path)
  if ext = ".exe".toList ∨ ext = ".bat".toList ∨ ext = ".sh".toList then
    path
  else
    path ++ ".exe".toList

end Win32Util

namespace Win32Util

/-! ### Accumulator lemmas for the serialiser -/

theorem append_backslashes_eq (result : List Char) (n : Nat) :
    append_backslashes result n = result ++ List.replicate n '\\' := by
  induction n generalizing result with
  | zero => simp [append_backslashes]
  | succ k ih =>
    rw [append_backslashes, ih, List.replicate_succ]
    simp

theorem emit_backslashes_fst (result : List Char) (bs : Int) :
    (emit_backslashes result bs).1 = result ++ List.replicate bs.toNat '\\' := by
  unfold emit_backslashes
  by_cases h : bs > 0
  · rw [if_pos h, append_backslashes_eq]
  · rw [if_neg h]
    have hz : bs.toNat = 0 := by omega
    simp [hz]

theorem emit_backslashes_snd (result : List Char) (bs : Int) :
    (emit_backslashes result bs).2 = if bs > 0 then 0 else bs := by
  unfold emit_backslashes
  by_cases h : bs > 0
  · rw [if_pos h, if_pos h]
  · rw [if_neg h, if_neg h]

theorem emit_backslashes_snd_indep (r1 r2 : List Char) (bs : Int) :
    (emit_backslashes r1 bs).2 = (emit_backslashes r2 bs).2 := by
  rw [emit_backslashes_snd, emit_backslashes_snd]

theorem scan_arg_cons_nul (e : Bool) (c : Char) (rest : List Char) (bs : Int)
    (result : List Char) (h0 : c = NUL) :
    scan_arg e (c :: rest) bs result = (result, bs) := by
  rw [scan_arg, if_pos h0]

theorem scan_arg_cons_pending (e : Bool) (c : Char) (rest : List Char) (bs : Int)
    (result : List Char) (h0 : c ≠ NUL) (h1 : c = '\\' ∧ e = false) :
    scan_arg e (c :: rest) bs result = scan_arg e rest (wrap_int (bs + 1)) result := by
  rw [scan_arg, if_neg h0, if_pos h1]

theorem scan_arg_cons_emit (e : Bool) (c : Char) (rest : List Char) (bs : Int)
    (result : List Char) (h0 : c ≠ NUL) (h1 : ¬ (c = '\\' ∧ e = false)) :
    scan_arg e (c :: rest) bs result
      = scan_arg e rest
          (emit_backslashes result
            (if c = '\\' ∨ c = '"' then wrap_int (wrap_int (2 * bs) + 1) else bs)).2
          (result ++ List.replicate
            (if c = '\\' ∨ c = '"' then wrap_int (wrap_int (2 * bs) + 1) else bs).toNat '\\'
            ++ [c]) := by
  rw [scan_arg, if_neg h0, if_neg h1]
  simp only [emit_backslashes_fst]

theorem scan_arg_acc (e : Bool) (arg : List Char) (bs : Int) (result : List Char) :
    scan_arg e arg bs result
      = (result ++ (scan_arg e arg bs []).1, (scan_arg e arg bs []).2) := by
  induction arg generalizing bs result with
  | nil => simp [scan_arg]
  | cons c rest ih =>
    by_cases h0 : c = NUL
    · simp [scan_arg_cons_nul, h0]
    · by_cases h1 : c = '\\' ∧ e = false
      · rw [scan_arg_cons_pending e c rest bs _ h0 h1, scan_arg_cons_pending e c rest bs _ h0 h1]
        exact ih _ _
      · rw [scan_arg_cons_emit e c rest bs _ h0 h1, scan_arg_cons_emit e c rest bs _ h0 h1,
          emit_backslashes_snd_indep result [], ih _ (result ++ _ ++ [c]),
          ih _ ([] ++ _ ++ [c])]
        simp

theorem encode_arg_eq (e : Bool) (arg result : List Char) :
    encode_arg e arg result = result ++ (quoted e arg ++ [' ']) := by
  unfold encode_arg quoted
  rw [scan_arg_acc e arg 0 (result ++ ['"'])]
  simp [emit_backslashes_fst]

theorem arg_loop_eq (e : Bool) (arg : List Char) (rest : List (List Char)) (result : List Char) :
    arg_loop e arg rest result
      = result ++ ((arg :: rest).map (fun a => quoted e a ++ [' '])).flatten := by
  induction rest generalizing arg result with
  | nil => simp [arg_loop, encode_arg_eq]
  | cons next rest ih =>
    rw [arg_loop, ih, encode_arg_eq]
    simp

theorem arg_loop_ne_nil (e : Bool) (arg : List Char) (rest : List (List Char)) :
    arg_loop e arg rest [] ≠ [] := by
  rw [arg_loop_eq]
  simp [quoted]

theorem dropLast_flatten_sep (f : List Char → List Char) (a : List Char)
    (rest : List (List Char)) :
    (((a :: rest).map (fun x => f x ++ [' '])).flatten).dropLast
      = List.intercalate [' '] ((a :: rest).map f) := by
  induction rest generalizing a with
  | nil => simp [List.intercalate]
  | cons b rest ih =>
    have hne : ((b :: rest).map (fun x => f x ++ [' '])).flatten ≠ [] := by simp
    have e1 : ((a :: b :: rest).map (fun x => f x ++ [' '])).flatten
        = (f a ++ [' ']) ++ ((b :: rest).map (fun x => f x ++ [' '])).flatten := by simp
    rw [e1, List.dropLast_append_of_ne_nil _ hne, ih b]
    simp [List.intercalate, List.intersperse]

/-- Closed form of the serialiser on a first argument `arg` followed by `rest`. -/
theorem argv_to_string_cons (e : Bool) (arg : List Char) (rest : List (List Char)) :
    argv_to_string (arg :: rest) [] e
      = some (List.intercalate [' '] ((arg :: rest).map (quoted e))) := by
  simp only [argv_to_string, List.isEmpty_nil, if_true, List.head?_cons, List.tail_cons]
  rw [arg_loop_eq, List.nil_append, dropLast_flatten_sep]

theorem argv_to_string_single (e : Bool) (arg : List Char) :
    argv_to_string [arg] [] e = some (quoted e arg) := by
  rw [argv_to_string_cons]
  simp [List.intercalate]

theorem intercalate_cons_cons (sep a b : List Char) (l : List (List Char)) :
    List.intercalate sep (a :: b :: l) = a ++ sep ++ List.intercalate sep (b :: l) := by
  simp [List.intercalate, List.intersperse]

theorem quoted_ends_with_quote (e : Bool) (arg : List Char) :
    ∃ pre, quoted e arg = pre ++ ['"'] :=
  ⟨'"' :: ((scan_arg e arg 0 []).1
      ++ List.replicate (wrap_int (2 * (scan_arg e arg 0 []).2)).toNat '\\'), by
    simp [quoted]⟩

theorem joined_ends_with_quote (e : Bool) (arg : List Char) (rest : List (List Char)) :
    ∃ pre, List.intercalate [' '] ((arg :: rest).map (quoted e)) = pre ++ ['"'] := by
  induction rest generalizing arg with
  | nil =>
    obtain ⟨pre, hpre⟩ := quoted_ends_with_quote e arg
    exact ⟨pre, by simp [List.intercalate, hpre]⟩
  | cons b rest ih =>
    obtain ⟨pre, hpre⟩ := ih b
    refine ⟨quoted e arg ++ [' '] ++ pre, ?_⟩
    rw [List.map_cons, List.map_cons, intercalate_cons_cons, ← List.map_cons, hpre]
    simp

/-- Scanning a text without NUL and then a second text is scanning their concatenation. -/
theorem scan_arg_append (e : Bool) (s t : List Char) (bs : Int) (result : List Char)
    (h0 : ∀ c ∈ s, c ≠ NUL) :
    scan_arg e (s ++ t) bs result
      = scan_arg e t (scan_arg e s bs result).2 (scan_arg e s bs result).1 := by
  induction s generalizing bs result with
  | nil => simp [scan_arg]
  | cons c rest ih =>
    have hc : c ≠ NUL := h0 c (by simp)
    have hrest : ∀ d ∈ rest, d ≠ NUL := fun d hd => h0 d (by simp [hd])
    by_cases h1 : c = '\\' ∧ e = false
    · rw [List.cons_append, scan_arg_cons_pending e c _ bs _ hc h1,
        scan_arg_cons_pending e c _ bs _ hc h1]
      exact ih _ _ hrest
    · rw [List.cons_append, scan_arg_cons_emit e c _ bs _ hc h1,
        scan_arg_cons_emit e c _ bs _ hc h1]
      exact ih _ _ hrest

theorem wrap_int_idem (x : Int) : wrap_int (wrap_int x) = wrap_int x := by
  unfold wrap_int
  omega

theorem wrap_int_succ (x : Int) : wrap_int (wrap_int x + 1) = wrap_int (x + 1) := by
  unfold wrap_int
  omega

/-- A run of `n` backslashes adds `n` to the counter, modulo `2^32`. -/
theorem scan_arg_backslashes (n : Nat) (bs : Int) (result : List Char)
    (hbs : wrap_int bs = bs) :
    scan_arg false (List.replicate n '\\') bs result = (result, wrap_int (bs + n)) := by
  induction n generalizing bs with
  | zero => simp [scan_arg, hbs]
  | succ k ih =>
    rw [List.replicate_succ, scan_arg_cons_pending false '\\' _ bs _ (by decide) ⟨rfl, rfl⟩,
      ih _ (wrap_int_idem _)]
    congr 1
    unfold wrap_int
    push_cast
    omega

/-- The text built by the loop is some body of at least two characters followed by the
separator space. -/
theorem arg_loop_ends_with_space (e : Bool) (arg : List Char) (rest : List (List Char)) :
    ∃ body : List Char, arg_loop e arg rest [] = body ++ [' '] ∧ 2 ≤ body.length := by
  rw [arg_loop_eq, List.nil_append]
  induction rest generalizing arg with
  | nil => exact ⟨quoted e arg, by simp, by simp [quoted]; omega⟩
  | cons b rest ih =>
    obtain ⟨body, hbody, hlen⟩ := ih b
    refine ⟨quoted e arg ++ [' '] ++ body, ?_, ?_⟩
    · rw [List.map_cons, List.flatten_cons, hbody]
      simp
    · simp only [List.length_append]
      omega

theorem trailing_backslashes_concat (text : List Char) (c : Char) :
    trailing_backslashes (text ++ [c])
      = if c = '\\' then trailing_backslashes text + 1 else 0 := by
  by_cases h : c = '\\'
  · simp [trailing_backslashes, List.takeWhile_cons, h]
  · simp [trailing_backslashes, List.takeWhile_cons, h]

theorem trailing_backslashes_run (text : List Char) (k : Nat) :
    trailing_backslashes (text ++ List.replicate k '\\') = trailing_backslashes text + k := by
  induction k with
  | zero => simp
  | succ k ih =>
    rw [List.replicate_succ', ← List.append_assoc, trailing_backslashes_concat, ih]
    simp
    omega

theorem wrap_int_double_even (x : Int) : (wrap_int (2 * x)).toNat % 2 = 0 := by
  unfold wrap_int
  omega

/-- The scan keeps the run of backslashes at the end of the text written of even length;
with `escape_backslashes = true` the counter is zero between characters. -/
theorem scan_arg_even_run (e : Bool) (arg : List Char) (bs : Int) (result : List Char)
    (h : trailing_backslashes result % 2 = 0) (hbs : e = true → bs = 0) :
    trailing_backslashes (scan_arg e arg bs result).1 % 2 = 0 := by
  induction arg generalizing bs result with
  | nil => simpa [scan_arg] using h
  | cons c rest ih =>
    by_cases h0 : c = NUL
    · rw [scan_arg_cons_nul e c rest bs result h0]
      exact h
    · by_cases h1 : c = '\\' ∧ e = false
      · rw [scan_arg_cons_pending e c rest bs result h0 h1]
        refine ih _ _ h ?_
        intro he
        rw [h1.2] at he
        exact absurd he (by decide)
      · rw [scan_arg_cons_emit e c rest bs result h0 h1]
        apply ih
        · rw [trailing_backslashes_concat, trailing_backslashes_run]
          by_cases hb : c = '\\'
          · have he : e = true := by
              cases e with
              | true => rfl
              | false => exact absurd ⟨hb, rfl⟩ h1
            have hz : bs = 0 := hbs he
            have h1' : (wrap_int (wrap_int (2 * bs) + 1)).toNat = 1 := by
              rw [hz]
              decide
            simp only [hb, true_or, if_true, h1']
            omega
          · simp [hb]
        · intro he
          rw [emit_backslashes_snd]
          have hz : bs = 0 := hbs he
          by_cases hc : c = '\\' ∨ c = '"'
          · have h1' : wrap_int (wrap_int (2 * bs) + 1) = 1 := by
              rw [hz]
              decide
            simp [hc, h1']
          · simp [hc, hz]

end Win32Util

namespace Win32Util

/-! ### The scan with an unbounded counter -/

theorem scan_unbounded_cons_nul (e : Bool) (c : Char) (rest : List Char) (bs : Nat)
    (result : List Char) (h0 : c = NUL) :
    scan_unbounded e (c :: rest) bs result = (result, bs) := by
  rw [scan_unbounded, if_pos h0]

theorem scan_unbounded_cons_pending (e : Bool) (c : Char) (rest : List Char) (bs : Nat)
    (result : List Char) (h0 : c ≠ NUL) (h1 : c = '\\' ∧ e = false) :
    scan_unbounded e (c :: rest) bs result = scan_unbounded e rest (bs + 1) result := by
  rw [scan_unbounded, if_neg h0, if_pos h1]

theorem scan_unbounded_cons_emit (e : Bool) (c : Char) (rest : List Char) (bs : Nat)
    (result : List Char) (h0 : c ≠ NUL) (h1 : ¬ (c = '\\' ∧ e = false)) :
    scan_unbounded e (c :: rest) bs result
      = scan_unbounded e rest 0
          (result ++ List.replicate (if c = '\\' ∨ c = '"' then (bs <<< 1) + 1 else bs) '\\'
            ++ [c]) := by
  rw [scan_unbounded, if_neg h0, if_neg h1]
  simp only [append_backslashes_eq]

theorem scan_unbounded_acc (e : Bool) (arg : List Char) (bs : Nat) (result : List Char) :
    scan_unbounded e arg bs result
      = (result ++ (scan_unbounded e arg bs []).1, (scan_unbounded e arg bs []).2) := by
  induction arg generalizing bs result with
  | nil => simp [scan_unbounded]
  | cons c rest ih =>
    by_cases h0 : c = NUL
    · simp [scan_unbounded_cons_nul, h0]
    · by_cases h1 : c = '\\' ∧ e = false
      · rw [scan_unbounded_cons_pending e c rest bs _ h0 h1, scan_unbounded_cons_pending e c rest bs _ h0 h1]
        exact ih _ _
      · rw [scan_unbounded_cons_emit e c rest bs _ h0 h1, scan_unbounded_cons_emit e c rest bs _ h0 h1,
          ih 0 (result ++ _ ++ [c]), ih 0 ([] ++ _ ++ [c])]
        simp

theorem tail_text_nil (e : Bool) (bs : Nat) :
    tail_text e [] bs = List.replicate (2 * bs) '\\' ++ ['"'] := by
  simp [tail_text, scan_unbounded, Nat.shiftLeft_eq, Nat.mul_comm]

theorem tail_text_cons_nul (e : Bool) (c : Char) (rest : List Char) (bs : Nat) (h0 : c = NUL) :
    tail_text e (c :: rest) bs = List.replicate (2 * bs) '\\' ++ ['"'] := by
  simp [tail_text, scan_unbounded_cons_nul e c rest bs [] h0, Nat.shiftLeft_eq, Nat.mul_comm]

theorem tail_text_cons_pending (e : Bool) (c : Char) (rest : List Char) (bs : Nat)
    (h0 : c ≠ NUL) (h1 : c = '\\' ∧ e = false) :
    tail_text e (c :: rest) bs = tail_text e rest (bs + 1) := by
  simp only [tail_text, scan_unbounded_cons_pending e c rest bs [] h0 h1]

theorem tail_text_cons_emit (e : Bool) (c : Char) (rest : List Char) (bs : Nat)
    (h0 : c ≠ NUL) (h1 : ¬ (c = '\\' ∧ e = false)) :
    tail_text e (c :: rest) bs
      = List.replicate (if c = '\\' ∨ c = '"' then 2 * bs + 1 else bs) '\\'
          ++ c :: tail_text e rest 0 := by
  simp only [tail_text, scan_unbounded_cons_emit e c rest bs [] h0 h1]
  rw [scan_unbounded_acc]
  simp [Nat.shiftLeft_eq, Nat.mul_comm]

/-- Scanning a text without NUL and then a second text is scanning their concatenation. -/
theorem scan_unbounded_append (e : Bool) (s t : List Char) (bs : Nat) (result : List Char)
    (h0 : ∀ c ∈ s, c ≠ NUL) :
    scan_unbounded e (s ++ t) bs result
      = scan_unbounded e t (scan_unbounded e s bs result).2 (scan_unbounded e s bs result).1 := by
  induction s generalizing bs result with
  | nil => simp [scan_unbounded]
  | cons c rest ih =>
    have hc : c ≠ NUL := h0 c (by simp)
    have hrest : ∀ d ∈ rest, d ≠ NUL := fun d hd => h0 d (by simp [hd])
    by_cases h1 : c = '\\' ∧ e = false
    · rw [List.cons_append, scan_unbounded_cons_pending e c _ bs _ hc h1,
        scan_unbounded_cons_pending e c _ bs _ hc h1]
      exact ih _ _ hrest
    · rw [List.cons_append, scan_unbounded_cons_emit e c _ bs _ hc h1,
        scan_unbounded_cons_emit e c _ bs _ hc h1]
      exact ih _ _ hrest

theorem scan_unbounded_backslashes (n bs : Nat) (result : List Char) :
    scan_unbounded false (List.replicate n '\\') bs result = (result, bs + n) := by
  induction n generalizing bs with
  | zero => simp [scan_unbounded]
  | succ k ih =>
    rw [List.replicate_succ, scan_unbounded_cons_pending false '\\' _ bs _ (by decide) ⟨rfl, rfl⟩, ih]
    congr 1
    omega

/-- A character other than a backslash leaves no pending run, and is the last one written. -/
theorem scan_unbounded_last (c : Char) (bs : Nat) (result : List Char)
    (h0 : c ≠ NUL) (hb : c ≠ '\\') :
    ∃ pre, scan_unbounded false [c] bs result = (pre ++ [c], 0) := by
  have h1 : ¬ (c = '\\' ∧ false = false) := fun h => hb h.1
  exact ⟨_, by rw [scan_unbounded_cons_emit false c [] bs result h0 h1, scan_unbounded]⟩

theorem tail_text_plain (e : Bool) (arg : List Char)
    (hq : '"' ∉ arg) (hb : '\\' ∉ arg) (h0 : NUL ∉ arg) :
    tail_text e arg 0 = arg ++ ['"'] := by
  induction arg with
  | nil => simp [tail_text_nil]
  | cons c rest ih =>
    simp only [List.mem_cons, not_or] at hq hb h0
    have hc0 : c ≠ NUL := fun h => h0.1 h.symm
    have hcb : c ≠ '\\' := fun h => hb.1 h.symm
    have hcq : c ≠ '"' := fun h => hq.1 h.symm
    rw [tail_text_cons_emit e c rest 0 hc0 (fun h => hcb h.1), ih hq.2 hb.2 h0.2]
    simp [hcb, hcq]

/-- After a text that is empty or ends in a character other than a backslash, no backslash is
pending and the text written so far does not end in a backslash. -/
theorem scan_unbounded_no_pending (s : List Char) (h0 : NUL ∉ s)
    (hs : s = [] ∨ s.getLast? ≠ some '\\') :
    (scan_unbounded false s 0 []).2 = 0
      ∧ ('"' :: (scan_unbounded false s 0 []).1).getLast? ≠ some '\\' := by
  rcases List.eq_nil_or_concat s with hnil | ⟨L, b, hLb⟩
  · subst hnil
    simp [scan_unbounded]
  · rw [List.concat_eq_append] at hLb
    subst hLb
    have hb : b ≠ '\\' := by
      rcases hs with h | h
      · simp at h
      · intro hb
        apply h
        simp [hb]
    have hb0 : b ≠ NUL := fun h => h0 (by simp [h])
    have hL : ∀ c ∈ L, c ≠ NUL := fun c hc h => h0 (by simp [← h, hc])
    obtain ⟨pre, hpre⟩ := scan_unbounded_last b (scan_unbounded false L 0 []).2 (scan_unbounded false L 0 []).1 hb0 hb
    rw [scan_unbounded_append false L [b] 0 [] hL, hpre]
    refine ⟨rfl, ?_⟩
    rw [show '"' :: (pre ++ [b]) = ('"' :: pre) ++ [b] from rfl, List.getLast?_concat]
    simpa using hb

/-! ### The parser run on the serialiser's output -/

open CommandLine in
theorem parse_backslash_run (args : List (List Char)) (cur : List Char) (q : Bool)
    (b k : Nat) (t : List Char) :
    List.foldl parse_step ⟨args, cur, true, q, b⟩ (List.replicate k '\\' ++ t)
      = List.foldl parse_step ⟨args, cur, true, q, b + k⟩ t := by
  induction k generalizing b with
  | zero => simp
  | succ k ih =>
    rw [List.replicate_succ, List.cons_append, List.foldl_cons]
    have hstep : parse_step ⟨args, cur, true, q, b⟩ '\\' = ⟨args, cur, true, q, b + 1⟩ := by
      simp [parse_step]
    rw [hstep, ih]
    congr 2
    omega

open CommandLine in
/-- Inside quotes, the parser reads the text written for `arg` with `bs` pending backslashes
as those backslashes followed by `arg`, and leaves quoted_unbounded mode at the closing quote. -/
theorem parse_tail_text (arg : List Char) (h0 : NUL ∉ arg) (args : List (List Char))
    (cur : List Char) (bs : Nat) (t : List Char) :
    List.foldl parse_step ⟨args, cur, true, true, 0⟩ (tail_text false arg bs ++ t)
      = List.foldl parse_step ⟨args, cur ++ List.replicate bs '\\' ++ arg, true, false, 0⟩ t := by
  induction arg generalizing cur bs with
  | nil =>
    rw [tail_text_nil, List.append_assoc, parse_backslash_run, List.singleton_append,
      List.foldl_cons]
    have hstep : parse_step ⟨args, cur, true, true, 0 + 2 * bs⟩ '"'
        = ⟨args, cur ++ List.replicate bs '\\' ++ [], true, false, 0⟩ := by
      simp [parse_step]
    rw [hstep]
  | cons c rest ih =>
    simp only [List.mem_cons, not_or] at h0
    have hc0 : c ≠ NUL := fun h => h0.1 h.symm
    by_cases hb : c = '\\'
    · subst hb
      rw [tail_text_cons_pending false '\\' rest bs hc0 ⟨rfl, rfl⟩, ih h0.2]
      congr 2
      simp [List.replicate_succ']
    · rw [tail_text_cons_emit false c rest bs hc0 (fun h => hb h.1), List.append_assoc,
        parse_backslash_run, List.cons_append, List.foldl_cons]
      by_cases hq : c = '"'
      · subst hq
        have hstep : parse_step ⟨args, cur, true, true, 0 + (2 * bs + 1)⟩ '"'
            = ⟨args, cur ++ List.replicate bs '\\' ++ ['"'], true, true, 0⟩ := by
          have h2 : (2 * bs + 1) / 2 = bs := by omega
          have h3 : (2 * bs + 1) % 2 = 1 := by omega
          simp [parse_step, h2, h3]
        simp only [or_true, if_true]
        rw [hstep, ih h0.2]
        simp
      · have hstep : parse_step ⟨args, cur, true, true, 0 + bs⟩ c
            = ⟨args, cur ++ List.replicate bs '\\' ++ [c], true, true, 0⟩ := by
          simp [parse_step, hb, hq]
        simp only [hb, hq, or_self, if_false]
        rw [hstep, ih h0.2]
        simp

open CommandLine in
/-- The parser, started between arguments, reads the joined quoted_unbounded forms back as the
arguments. -/
theorem parse_joined (arg : List Char) (rest : List (List Char))
    (h0 : ∀ a ∈ arg :: rest, NUL ∉ a) (args : List (List Char)) :
    parse_finish (List.foldl parse_step ⟨args, [], false, false, 0⟩
        (List.intercalate [' '] ((arg :: rest).map (quoted_unbounded false))))
      = args ++ arg :: rest := by
  have hopen : ∀ args : List (List Char),
      parse_step ⟨args, [], false, false, 0⟩ '"' = ⟨args, [], true, true, 0⟩ := by
    intro args
    simp [parse_step]
  induction rest generalizing arg args with
  | nil =>
    have h := parse_tail_text arg (h0 arg (by simp)) args [] 0 []
    simp only [List.append_nil] at h
    simp only [List.map_cons, List.map_nil, List.intercalate, List.intersperse, List.flatten_cons,
      List.flatten_nil, List.append_nil, quoted_unbounded, List.foldl_cons]
    rw [hopen, h]
    simp [parse_finish]
  | cons b rest ih =>
    have h := parse_tail_text arg (h0 arg (by simp)) args [] 0
      ([' '] ++ List.intercalate [' '] ((b :: rest).map (quoted_unbounded false)))
    rw [List.map_cons, List.map_cons, intercalate_cons_cons, ← List.map_cons, quoted_unbounded,
      List.cons_append, List.cons_append, List.foldl_cons, hopen, List.append_assoc, h,
      List.singleton_append, List.foldl_cons]
    have hsep : parse_step ⟨args, [] ++ List.replicate 0 '\\' ++ arg, true, false, 0⟩ ' '
        = ⟨args ++ [arg], [], false, false, 0⟩ := by
      simp [parse_step]
    rw [hsep, ih b (fun a ha => h0 a (by simp at ha ⊢; tauto))]
    simp

theorem quoted_unbounded_eq (e : Bool) (arg : List Char) :
    quoted_unbounded e arg
      = '"' :: ((scan_unbounded e arg 0 []).1
          ++ List.replicate (2 * (scan_unbounded e arg 0 []).2) '\\' ++ ['"']) := by
  simp [quoted_unbounded, tail_text, Nat.shiftLeft_eq, Nat.mul_comm]

/-- Without double quotes, and with `escape_backslashes = false`, the text written and the
pending run together are the pending backslashes at the start followed by the argument. -/
theorem scan_unbounded_no_quote (arg : List Char) (bs : Nat) (h0 : NUL ∉ arg) (hq : '"' ∉ arg) :
    (scan_unbounded false arg bs []).1 ++ List.replicate (scan_unbounded false arg bs []).2 '\\'
      = List.replicate bs '\\' ++ arg := by
  induction arg generalizing bs with
  | nil => simp [scan_unbounded]
  | cons c rest ih =>
    simp only [List.mem_cons, not_or] at h0 hq
    have hc0 : c ≠ NUL := fun h => h0.1 h.symm
    have hcq : c ≠ '"' := fun h => hq.1 h.symm
    by_cases hb : c = '\\'
    · rw [scan_unbounded_cons_pending false c rest bs [] hc0 ⟨hb, rfl⟩, ih (bs + 1) h0.2 hq.2, hb,
        List.replicate_succ']
      simp
    · rw [scan_unbounded_cons_emit false c rest bs [] hc0 (fun h => hb h.1), scan_unbounded_acc]
      simp only [hb, hcq, or_self, if_false, List.nil_append, List.append_assoc]
      rw [ih 0 h0.2 hq.2]
      simp

/-- With `escape_backslashes = true` nothing is ever pending and the text written is the naive
character map of the argument. -/
theorem scan_unbounded_escape_all (arg : List Char) (h0 : NUL ∉ arg) :
    scan_unbounded true arg 0 [] = (escape_all arg, 0) := by
  induction arg with
  | nil => simp [scan_unbounded, escape_all]
  | cons c rest ih =>
    simp only [List.mem_cons, not_or] at h0
    have hc0 : c ≠ NUL := fun h => h0.1 h.symm
    rw [scan_unbounded_cons_emit true c rest 0 [] hc0 (by simp), scan_unbounded_acc, ih h0.2]
    by_cases h : c = '\\' ∨ c = '"'
    · simp [escape_all, h, List.flatMap_cons]
    · simp [escape_all, h, List.flatMap_cons]

open CommandLine in
theorem unescape_escape_all (arg : List Char) (args : List (List Char)) (cur t : List Char) :
    List.foldl unescape_step ⟨args, cur, true, false⟩ (escape_all arg ++ t)
      = List.foldl unescape_step ⟨args, cur ++ arg, true, false⟩ t := by
  induction arg generalizing cur with
  | nil => simp [escape_all]
  | cons c rest ih =>
    have hcons : escape_all (c :: rest)
        = (if c = '\\' ∨ c = '"' then ['\\', c] else [c]) ++ escape_all rest := by
      simp [escape_all, List.flatMap_cons]
    rw [hcons]
    by_cases h : c = '\\' ∨ c = '"'
    · have h1 : unescape_step ⟨args, cur, true, false⟩ '\\' = ⟨args, cur, true, true⟩ := by
        simp [unescape_step]
      have h2 : unescape_step ⟨args, cur, true, true⟩ c = ⟨args, cur ++ [c], true, false⟩ := by
        simp [unescape_step]
      simp only [h, if_true, List.cons_append, List.nil_append, List.foldl_cons]
      rw [h1, h2, ih]
      simp
    · have hb : c ≠ '\\' := fun hc => h (Or.inl hc)
      have hq : c ≠ '"' := fun hc => h (Or.inr hc)
      have h1 : unescape_step ⟨args, cur, true, false⟩ c = ⟨args, cur ++ [c], true, false⟩ := by
        simp [unescape_step, hb, hq]
      simp only [h, if_false, List.cons_append, List.nil_append, List.foldl_cons]
      rw [h1, ih]
      simp

theorem quoted_unbounded_escape_all (arg : List Char) (h0 : NUL ∉ arg) :
    quoted_unbounded true arg = '"' :: (escape_all arg ++ ['"']) := by
  rw [quoted_unbounded_eq, scan_unbounded_escape_all arg h0]
  simp

open CommandLine in
/-- The reader of the `escape_backslashes = true` form, started between arguments, reads the
joined quoted_unbounded forms back as the arguments. -/
theorem unescape_joined (arg : List Char) (rest : List (List Char))
    (h0 : ∀ a ∈ arg :: rest, NUL ∉ a) (args : List (List Char)) :
    List.foldl unescape_step ⟨args, [], false, false⟩
        (List.intercalate [' '] ((arg :: rest).map (quoted_unbounded true)))
      = ⟨args ++ arg :: rest, [], false, false⟩ := by
  have hopen : ∀ args : List (List Char),
      unescape_step ⟨args, [], false, false⟩ '"' = ⟨args, [], true, false⟩ := by
    intro args
    simp [unescape_step]
  have hclose : ∀ (args : List (List Char)) (cur : List Char),
      unescape_step ⟨args, cur, true, false⟩ '"' = ⟨args ++ [cur], [], false, false⟩ := by
    intro args cur
    simp [unescape_step]
  have hsep : ∀ args : List (List Char),
      unescape_step ⟨args, [], false, false⟩ ' ' = ⟨args, [], false, false⟩ := by
    intro args
    simp [unescape_step]
  induction rest generalizing arg args with
  | nil =>
    simp only [List.map_cons, List.map_nil, List.intercalate, List.intersperse, List.flatten_cons,
      List.flatten_nil, List.append_nil]
    rw [quoted_unbounded_escape_all arg (h0 arg (by simp)), List.foldl_cons, hopen, unescape_escape_all,
      List.foldl_cons, hclose]
    simp
  | cons b rest ih =>
    rw [List.map_cons, List.map_cons, intercalate_cons_cons, ← List.map_cons,
      quoted_unbounded_escape_all arg (h0 arg (by simp)), List.cons_append, List.cons_append,
      List.foldl_cons, hopen, List.append_assoc, List.append_assoc, unescape_escape_all,
      List.singleton_append, List.foldl_cons, hclose, List.singleton_append, List.foldl_cons,
      hsep, ih b (fun a ha => h0 a (by simp at ha ⊢; tauto))]
    simp

end Win32Util

namespace Win32Util

/-! ### The `int` counter against the unbounded counter -/

theorem emit_backslashes_natCast (result : List Char) (n : Nat) :
    emit_backslashes result (n : Int) = (append_backslashes result n, 0) := by
  unfold emit_backslashes
  by_cases h : (n : Int) > 0
  · rw [if_pos h, Int.toNat_ofNat]
  · rw [if_neg h]
    have hz : n = 0 := by omega
    subst hz
    rfl

theorem wrap_int_of_fit (x : Int) (h0 : 0 ≤ x) (h1 : x < 2147483648) : wrap_int x = x := by
  unfold wrap_int
  omega

theorem runs_fit_cons_nul (c : Char) (rest : List Char) (pending : Nat) (h0 : c = NUL) :
    runs_fit (c :: rest) pending = decide (pending < 1073741824) := by
  rw [runs_fit, if_pos h0]

theorem runs_fit_cons_backslash (c : Char) (rest : List Char) (pending : Nat) (h0 : c ≠ NUL)
    (hb : c = '\\') :
    runs_fit (c :: rest) pending
      = (decide (pending + 1 < 2147483648) && runs_fit rest (pending + 1)) := by
  rw [runs_fit, if_neg h0, if_pos hb]

theorem runs_fit_cons_quote (c : Char) (rest : List Char) (pending : Nat) (h0 : c ≠ NUL)
    (hb : c ≠ '\\') (hq : c = '"') :
    runs_fit (c :: rest) pending = (decide (pending < 1073741824) && runs_fit rest 0) := by
  rw [runs_fit, if_neg h0, if_neg hb, if_pos hq]

theorem runs_fit_cons_other (c : Char) (rest : List Char) (pending : Nat) (h0 : c ≠ NUL)
    (hb : c ≠ '\\') (hq : c ≠ '"') :
    runs_fit (c :: rest) pending = runs_fit rest 0 := by
  rw [runs_fit, if_neg h0, if_neg hb, if_neg hq]

/-- On an argument whose runs fit, the scan of the source with its `int` counter is the scan
with an unbounded counter, and the run pending at the end is shorter than `2^30`. -/
theorem scan_arg_eq_unbounded (arg : List Char) (bs : Nat) (result : List Char)
    (hbs : bs < 2147483648) (hfit : runs_fit arg bs = true) :
    scan_arg false arg (bs : Int) result
        = ((scan_unbounded false arg bs result).1, ((scan_unbounded false arg bs result).2 : Int))
      ∧ (scan_unbounded false arg bs result).2 < 1073741824 := by
  induction arg generalizing bs result with
  | nil =>
    simp only [runs_fit, decide_eq_true_eq] at hfit
    simp [scan_arg, scan_unbounded, hfit]
  | cons c rest ih =>
    by_cases h0 : c = NUL
    · rw [runs_fit_cons_nul c rest bs h0, decide_eq_true_eq] at hfit
      rw [scan_arg_cons_nul false c rest _ result h0,
        scan_unbounded_cons_nul false c rest bs result h0]
      exact ⟨rfl, hfit⟩
    · by_cases hb : c = '\\'
      · rw [runs_fit_cons_backslash c rest bs h0 hb, Bool.and_eq_true,
          decide_eq_true_eq] at hfit
        rw [scan_arg_cons_pending false c rest _ result h0 ⟨hb, rfl⟩,
          scan_unbounded_cons_pending false c rest bs result h0 ⟨hb, rfl⟩]
        have hw : wrap_int ((bs : Int) + 1) = ((bs + 1 : Nat) : Int) := by
          rw [wrap_int_of_fit _ (by omega) (by omega)]
          push_cast
          rfl
        rw [hw]
        exact ih (bs + 1) result hfit.1 hfit.2
      · have h1 : ¬ (c = '\\' ∧ false = false) := fun h => hb h.1
        rw [scan_arg_cons_emit false c rest _ result h0 h1,
          scan_unbounded_cons_emit false c rest bs result h0 h1]
        by_cases hq : c = '"'
        · rw [runs_fit_cons_quote c rest bs h0 hb hq, Bool.and_eq_true,
            decide_eq_true_eq] at hfit
          have hw : wrap_int (wrap_int (2 * (bs : Int)) + 1) = ((2 * bs + 1 : Nat) : Int) := by
            rw [wrap_int_of_fit (2 * (bs : Int)) (by omega) (by omega),
              wrap_int_of_fit _ (by omega) (by omega)]
            push_cast
            rfl
          simp only [hq, or_true, if_true, hw, emit_backslashes_natCast, Int.toNat_ofNat,
            Nat.shiftLeft_eq, pow_one, Nat.mul_comm bs 2]
          exact ih 0 _ (by omega) hfit.2
        · rw [runs_fit_cons_other c rest bs h0 hb hq] at hfit
          simp only [hb, hq, or_self, if_false, emit_backslashes_natCast, Int.toNat_ofNat]
          exact ih 0 _ (by omega) hfit

/-- With `escape_backslashes = true` the counter never exceeds one, and the scan of the source
is the scan with an unbounded counter on every argument. -/
theorem scan_arg_true_eq_unbounded (arg : List Char) (result : List Char) :
    scan_arg true arg 0 result = ((scan_unbounded true arg 0 result).1, 0)
      ∧ (scan_unbounded true arg 0 result).2 = 0 := by
  induction arg generalizing result with
  | nil => simp [scan_arg, scan_unbounded]
  | cons c rest ih =>
    by_cases h0 : c = NUL
    · rw [scan_arg_cons_nul true c rest _ result h0,
        scan_unbounded_cons_nul true c rest 0 result h0]
      exact ⟨rfl, rfl⟩
    · have h1 : ¬ (c = '\\' ∧ true = false) := fun h => absurd h.2 (by decide)
      rw [scan_arg_cons_emit true c rest _ result h0 h1,
        scan_unbounded_cons_emit true c rest 0 result h0 h1]
      by_cases hc : c = '\\' ∨ c = '"'
      · have hw : wrap_int (wrap_int (2 * 0) + 1) = ((1 : Nat) : Int) := by decide
        simp only [hc, if_true, hw, emit_backslashes_natCast, Int.toNat_ofNat,
          Nat.zero_shiftLeft, Nat.zero_add]
        exact ih _
      · have hz : (0 : Int) = ((0 : Nat) : Int) := rfl
        simp only [hc, if_false]
        rw [hz, emit_backslashes_natCast, Int.toNat_ofNat]
        exact ih _

/-- The quoted form written by the source is the one computed with an unbounded counter, for
every argument when `escape_backslashes = true` and for the arguments whose runs fit when it
is false. -/
theorem quoted_eq_unbounded (e : Bool) (arg : List Char)
    (hfit : e = false → runs_fit arg 0 = true) :
    quoted e arg = quoted_unbounded e arg := by
  cases e with
  | true =>
    obtain ⟨h1, h2⟩ := scan_arg_true_eq_unbounded arg []
    rw [quoted, quoted_unbounded_eq, h1, h2]
    simp [wrap_int]
  | false =>
    obtain ⟨h1, h2⟩ := scan_arg_eq_unbounded arg 0 [] (by decide) (hfit rfl)
    have h1' : scan_arg false arg 0 []
        = ((scan_unbounded false arg 0 []).1, ((scan_unbounded false arg 0 []).2 : Int)) := h1
    rw [quoted, quoted_unbounded_eq, h1']
    have hw : wrap_int (2 * ((scan_unbounded false arg 0 []).2 : Int))
        = ((2 * (scan_unbounded false arg 0 []).2 : Nat) : Int) := by
      rw [wrap_int_of_fit _ (by omega) (by omega)]
      push_cast
      rfl
    simp only [hw, Int.toNat_ofNat]

theorem map_quoted_eq_unbounded (e : Bool) (argv : List (List Char))
    (hfit : e = false → ∀ a ∈ argv, runs_fit a 0 = true) :
    argv.map (quoted e) = argv.map (quoted_unbounded e) :=
  List.map_congr_left (fun a ha => quoted_eq_unbounded e a (fun he => hfit he a ha))

/-- An argument without backslash and without double quote has no run at all. -/
theorem runs_fit_plain (arg : List Char) (hq : '"' ∉ arg) (hb : '\\' ∉ arg) :
    runs_fit arg 0 = true := by
  induction arg with
  | nil => decide
  | cons c rest ih =>
    simp only [List.mem_cons, not_or] at hq hb
    have hcb : c ≠ '\\' := fun h => hb.1 h.symm
    have hcq : c ≠ '"' := fun h => hq.1 h.symm
    by_cases h0 : c = NUL
    · rw [runs_fit_cons_nul c rest 0 h0]
      decide
    · rw [runs_fit_cons_other c rest 0 h0 hcb hcq]
      exact ih hq.2 hb.2

end Win32Util

/-! ## Claims about `Win32Util::argv_to_string` -/

namespace Win32Util

/-- The argument made of `2^30` backslashes is written as the empty argument: the doubled
count `2^31` does not fit `int`, becomes negative, and nothing is flushed. -/
theorem quoted_overflow : quoted false (List.replicate 1073741824 '\\') = ['"', '"'] := by
  have hw : wrap_int (2 * wrap_int (0 + ((1073741824 : Nat) : Int))) = -2147483648 := by
    unfold wrap_int
    omega
  rw [quoted, scan_arg_backslashes 1073741824 0 [] (by decide), hw]
  rfl

theorem NUL_not_mem_backslashes (n : Nat) : NUL ∉ List.replicate n '\\' := by
  intro h
  exact absurd (List.eq_of_mem_replicate h) (by decide)

/-- C1 (as stated, refuted): the vector whose only argument is `2^30` backslashes, a C string,
is serialised as `""`, which the reference parser reads back as one empty argument. -/
theorem argv_to_string_round_trip_overflow :
    [List.replicate 1073741824 '\\'] ≠ []
      ∧ (∀ a ∈ [List.replicate 1073741824 '\\'], NUL ∉ a)
      ∧ argv_to_string [List.replicate 1073741824 '\\'] [] false = some ['"', '"']
      ∧ (argv_to_string [List.replicate 1073741824 '\\'] [] false).map
          CommandLine.parse_command_line = some [[]]
      ∧ (argv_to_string [List.replicate 1073741824 '\\'] [] false).map
          CommandLine.parse_command_line ≠ some [List.replicate 1073741824 '\\'] := by
  have hout : argv_to_string [List.replicate 1073741824 '\\'] [] false = some ['"', '"'] := by
    rw [argv_to_string_single, quoted_overflow]
  refine ⟨List.cons_ne_nil _ _, ?_, hout, ?_, ?_⟩
  · intro a ha
    rw [List.mem_singleton] at ha
    rw [ha]
    exact NUL_not_mem_backslashes _
  · rw [hout]
    decide
  · rw [hout]
    intro h
    have h1 : CommandLine.parse_command_line ['"', '"'] = [[]] := by decide
    rw [Option.map_some', h1] at h
    have h2 := congrArg List.length (List.cons.inj (Option.some.inj h)).1
    rw [List.length_replicate] at h2
    exact absurd h2 (by decide)

/-- C1 (amended): round trip through the Windows command-line parsing rule.  For every
non-empty argument vector `argv` of C strings (no NUL) whose backslash runs fit the `int`
counter (every run shorter than `2^31`, and shorter than `2^30` when a double quote follows it
or it ends the argument), with empty prefix and `escape_backslashes = false`,
`argv_to_string argv` returns a command line, and the reference parser reads that command
line back as exactly `argv`. -/
theorem argv_to_string_round_trip (argv : List (List Char)) (hargv : argv ≠ [])
    (h0 : ∀ a ∈ argv, NUL ∉ a) (hfit : ∀ a ∈ argv, runs_fit a 0 = true) :
    (argv_to_string argv [] false).map CommandLine.parse_command_line = some argv := by
  cases argv with
  | nil => exact absurd rfl hargv
  | cons arg rest =>
    rw [argv_to_string_cons, map_quoted_eq_unbounded false _ (fun _ => hfit), Option.map_some',
      CommandLine.parse_command_line, parse_joined arg rest h0 []]
    simp

theorem argv_to_string_round_trip_witness :
    (argv_to_string ["C:\\bin\\cl.exe".toList, [], "a \"b\" c\\".toList, "\\\\\"".toList]
        [] false).map CommandLine.parse_command_line
      = some ["C:\\bin\\cl.exe".toList, [], "a \"b\" c\\".toList, "\\\\\"".toList] :=
  argv_to_string_round_trip
    ["C:\\bin\\cl.exe".toList, [], "a \"b\" c\\".toList, "\\\\\"".toList] (by decide) (by decide)
    (by decide)

/-- C2: for every argument `arg` (a C string, hence without NUL) that contains no double quote
and no backslash, and for either value of `escape_backslashes`, `argv_to_string` of the
one-element vector `[arg]` with empty prefix is a double quote, `arg` unchanged, and a double
quote. -/
theorem argv_to_string_plain_arg (arg : List Char) (e : Bool)
    (hq : '"' ∉ arg) (hb : '\\' ∉ arg) (h0 : NUL ∉ arg) :
    argv_to_string [arg] [] e = some ('"' :: (arg ++ ['"'])) := by
  rw [argv_to_string_single, quoted_eq_unbounded e arg (fun _ => runs_fit_plain arg hq hb),
    quoted_unbounded, tail_text_plain e arg hq hb h0]

theorem argv_to_string_plain_arg_witness :
    argv_to_string ["-DNAME=a b".toList] [] true = some "\"-DNAME=a b\"".toList :=
  argv_to_string_plain_arg "-DNAME=a b".toList true (by decide) (by decide) (by decide)

/-- The scan of a C string whose runs fit, that is empty or does not end in a backslash,
leaves the counter at zero. -/
theorem scan_arg_no_pending (s : List Char) (h0 : NUL ∉ s)
    (hs : s = [] ∨ s.getLast? ≠ some '\\') (hfit : runs_fit s 0 = true) :
    scan_arg false s 0 [] = ((scan_unbounded false s 0 []).1, 0) := by
  have h : scan_arg false s 0 []
      = ((scan_unbounded false s 0 []).1, ((scan_unbounded false s 0 []).2 : Int)) :=
    (scan_arg_eq_unbounded s 0 [] (by decide) hfit).1
  rw [h, (scan_unbounded_no_pending s h0 hs).1]
  rfl

/-- C3 (as stated, refuted): with `s` empty and `n = 2^30` the encoding of `s` followed by `n`
backslashes is `""`, the encoding of `s` itself, with no backslash inserted. -/
theorem argv_to_string_trailing_run_overflow :
    NUL ∉ ([] : List Char)
      ∧ argv_to_string [[]] [] false = some ['"', '"']
      ∧ argv_to_string [[] ++ List.replicate 1073741824 '\\'] [] false = some ['"', '"']
      ∧ ¬ ∃ body : List Char,
          body.getLast? ≠ some '\\'
          ∧ argv_to_string [[]] [] false = some (body ++ ['"'])
          ∧ argv_to_string [[] ++ List.replicate 1073741824 '\\'] [] false
              = some (body ++ List.replicate (2 * 1073741824) '\\' ++ ['"']) := by
  have hout : argv_to_string [[] ++ List.replicate 1073741824 '\\'] [] false
      = some ['"', '"'] := by
    rw [List.nil_append, argv_to_string_single, quoted_overflow]
  refine ⟨by decide, by decide, hout, ?_⟩
  rintro ⟨body, -, -, h2⟩
  rw [hout] at h2
  have h3 := congrArg List.length (Option.some.inj h2)
  simp only [List.length_cons, List.length_nil, List.length_append, List.length_replicate] at h3
  omega

/-- C3 (amended): trailing backslash runs are doubled.  With `escape_backslashes = false` and
empty prefix, for every C string `s` whose backslash runs fit the `int` counter and that is
empty or does not end in a backslash, and every `n` below `2^30`, the encoding of `s` is some
`body` followed by the closing quote, `body` does not end in a backslash, and the encoding of
`s` followed by `n` backslashes is `body`, then exactly `2 * n` backslashes, then the closing
quote.  The spot check `["a\\", "b\"c"]` serialises to `"a\\\\" "b\\"c"`. -/
theorem argv_to_string_trailing_run (s : List Char) (n : Nat) (h0 : NUL ∉ s)
    (hs : s = [] ∨ s.getLast? ≠ some '\\') (hfit : runs_fit s 0 = true)
    (hn : n < 1073741824) :
    (∃ body : List Char,
        body.getLast? ≠ some '\\'
        ∧ argv_to_string [s] [] false = some (body ++ ['"'])
        ∧ argv_to_string [s ++ List.replicate n '\\'] [] false
            = some (body ++ List.replicate (2 * n) '\\' ++ ['"']))
      ∧ argv_to_string ["a\\".toList, "b\"c".toList] [] false
          = some "\"a\\\\\" \"b\\\"c\"".toList := by
  have hL : ∀ c ∈ s, c ≠ NUL := fun c hc h => h0 (by simp [← h, hc])
  have hscan := scan_arg_no_pending s h0 hs hfit
  refine ⟨⟨'"' :: (scan_unbounded false s 0 []).1, (scan_unbounded_no_pending s h0 hs).2,
    ?_, ?_⟩, by decide⟩
  · have hz : (wrap_int (2 * 0)).toNat = 0 := by decide
    rw [argv_to_string_single, quoted, hscan]
    simp only [hz]
    simp
  · have hw : (wrap_int (2 * wrap_int (0 + (n : Int)))).toNat = 2 * n := by
      unfold wrap_int
      omega
    rw [argv_to_string_single, quoted, scan_arg_append false s _ 0 [] hL, hscan,
      scan_arg_backslashes n 0 _ (by decide), hw]
    simp

theorem argv_to_string_trailing_run_witness :
    (∃ body : List Char,
        body.getLast? ≠ some '\\'
        ∧ argv_to_string ["C:\\dir".toList] [] false = some (body ++ ['"'])
        ∧ argv_to_string ["C:\\dir".toList ++ List.replicate 2 '\\'] [] false
            = some (body ++ List.replicate (2 * 2) '\\' ++ ['"']))
      ∧ argv_to_string ["a\\".toList, "b\"c".toList] [] false
          = some "\"a\\\\\" \"b\\\"c\"".toList :=
  argv_to_string_trailing_run "C:\\dir".toList 2 (by decide) (Or.inr (by decide)) (by decide)
    (by decide)

/-- C4 (as stated, refuted): with `argv = ["gcc"]` and prefix `sh` the output is
`"sh" "gcc"`; it differs from the serialisation of `sh` followed by `argv[1:]`, which is
`"sh"`, and `argv[0]` does appear in it. -/
theorem argv_to_string_prefix_not_substituted :
    argv_to_string ["gcc".toList] "sh".toList false = some "\"sh\" \"gcc\"".toList
      ∧ argv_to_string ("sh".toList :: (["gcc".toList] : List (List Char)).tail) [] false
          = some "\"sh\"".toList
      ∧ argv_to_string ["gcc".toList] "sh".toList false
          ≠ argv_to_string ("sh".toList :: (["gcc".toList] : List (List Char)).tail) [] false := by
  decide

/-- C4 (amended): a non-empty prefix is prepended as an additional first argument.  For every
`argv` (in particular every non-empty one), every non-empty prefix `p` and either value of
`escape_backslashes`, `argv_to_string argv p e` equals `argv_to_string (p :: argv) "" e`, the
whole of `argv` following `p`. -/
theorem argv_to_string_prefix_prepended (argv : List (List Char)) (p : List Char) (e : Bool)
    (hp : p ≠ []) :
    argv_to_string argv p e = argv_to_string (p :: argv) [] e := by
  cases p with
  | nil => exact absurd rfl hp
  | cons c cs => simp [argv_to_string]

theorem argv_to_string_prefix_prepended_witness :
    argv_to_string ["script.sh".toList, "-c".toList] "sh.exe".toList true
      = argv_to_string ["sh.exe".toList, "script.sh".toList, "-c".toList] [] true :=
  argv_to_string_prefix_prepended ["script.sh".toList, "-c".toList] "sh.exe".toList true
    (by decide)

/-- C5: serialisation distributes over the vector.  For every non-empty `argv`, empty prefix
and either value of `escape_backslashes`, there are per-argument encodings `parts`, the
results of `argv_to_string [a]` for the elements `a` of `argv` in order, such that
`argv_to_string argv` is `parts` joined by exactly one space, and the output does not end in
a space. -/
theorem argv_to_string_distributes (argv : List (List Char)) (e : Bool) (hargv : argv ≠ []) :
    ∃ parts : List (List Char),
      List.Forall₂ (fun a part => argv_to_string [a] [] e = some part) argv parts
      ∧ argv_to_string argv [] e = some (List.intercalate [' '] parts)
      ∧ (List.intercalate [' '] parts).getLast? ≠ some ' ' := by
  cases argv with
  | nil => exact absurd rfl hargv
  | cons arg rest =>
    refine ⟨(arg :: rest).map (quoted e), ?_, argv_to_string_cons e arg rest, ?_⟩
    · rw [List.forall₂_map_right_iff]
      exact List.forall₂_same.mpr (fun a _ => argv_to_string_single e a)
    · obtain ⟨pre, hpre⟩ := joined_ends_with_quote e arg rest
      rw [hpre, List.getLast?_concat]
      decide

theorem argv_to_string_distributes_witness :
    ∃ parts : List (List Char),
      List.Forall₂ (fun a part => argv_to_string [a] [] false = some part)
        ["cl".toList, [], "a b".toList] parts
      ∧ argv_to_string ["cl".toList, [], "a b".toList] [] false
          = some (List.intercalate [' '] parts)
      ∧ (List.intercalate [' '] parts).getLast? ≠ some ' ' :=
  argv_to_string_distributes ["cl".toList, [], "a b".toList] false (by decide)

/-- C13 (as stated, refuted): with `s` and `t` empty and `n = 2^30` the argument is `2^30`
backslashes and a double quote; its encoding is `""\\"` (the counter `2^31 + 1` does not fit
`int`, nothing is flushed before the quote, and two backslashes are flushed at the end), not
`2^31 + 1` backslashes and a quote between the outer quotes. -/
theorem argv_to_string_quote_escalation_overflow :
    NUL ∉ ([] : List Char)
      ∧ argv_to_string [[] ++ List.replicate 1073741824 '\\' ++ '"' :: []] [] false
          = some ['"', '"', '\\', '\\', '"']
      ∧ ¬ ∃ es et : List Char,
          argv_to_string [[]] [] false = some ('"' :: (es ++ ['"']))
          ∧ argv_to_string [[]] [] false = some ('"' :: (et ++ ['"']))
          ∧ argv_to_string [[] ++ List.replicate 1073741824 '\\' ++ '"' :: []] [] false
              = some ('"' :: ((es ++ List.replicate (2 * 1073741824 + 1) '\\' ++ '"' :: et)
                  ++ ['"'])) := by
  have hR : ∀ c ∈ List.replicate 1073741824 '\\', c ≠ NUL := by
    intro c hc h
    exact NUL_not_mem_backslashes _ (h ▸ hc)
  have hw : wrap_int (0 + ((1073741824 : Nat) : Int)) = 1073741824 := by
    unfold wrap_int
    omega
  have hq : scan_arg false ['"'] 1073741824 [] = (['"'], -2147483647) := by decide
  have hout : argv_to_string [[] ++ List.replicate 1073741824 '\\' ++ '"' :: []] [] false
      = some ['"', '"', '\\', '\\', '"'] := by
    rw [List.nil_append, argv_to_string_single, quoted, scan_arg_append false _ _ 0 [] hR,
      scan_arg_backslashes 1073741824 0 [] (by decide), hw, hq]
    decide
  refine ⟨by decide, hout, ?_⟩
  rintro ⟨es, et, -, -, h3⟩
  rw [hout] at h3
  have h4 := congrArg List.length (Option.some.inj h3)
  simp only [List.length_cons, List.length_nil, List.length_append, List.length_replicate] at h4
  omega

/-- C13 (amended): quote escalation.  With `escape_backslashes = false` and empty prefix, for
every C string `s` whose backslash runs fit the `int` counter and that is empty or does not
end in a backslash, every `n` below `2^30` and every `t`, writing `es` and `et` for
`argv_to_string [s]` and `argv_to_string [t]` stripped of their opening and closing double
quote, `argv_to_string [s ++ n backslashes ++ one double quote ++ t]` stripped likewise is
`es`, then `2 * n + 1` backslashes, then the double quote, then `et`: the text after the quote
is encoded as from a pending run of zero. -/
theorem argv_to_string_quote_escalation (s t : List Char) (n : Nat) (h0 : NUL ∉ s)
    (hs : s = [] ∨ s.getLast? ≠ some '\\') (hfit : runs_fit s 0 = true)
    (hn : n < 1073741824) :
    ∃ es et : List Char,
      argv_to_string [s] [] false = some ('"' :: (es ++ ['"']))
      ∧ argv_to_string [t] [] false = some ('"' :: (et ++ ['"']))
      ∧ argv_to_string [s ++ List.replicate n '\\' ++ '"' :: t] [] false
          = some ('"' :: ((es ++ List.replicate (2 * n + 1) '\\' ++ '"' :: et) ++ ['"'])) := by
  have hL : ∀ c ∈ s, c ≠ NUL := fun c hc h => h0 (by simp [← h, hc])
  have hR : ∀ c ∈ List.replicate n '\\', c ≠ NUL := by
    intro c hc h
    exact NUL_not_mem_backslashes _ (h ▸ hc)
  have hscan := scan_arg_no_pending s h0 hs hfit
  have hz : (wrap_int (2 * 0)).toNat = 0 := by decide
  refine ⟨(scan_unbounded false s 0 []).1,
    (scan_arg false t 0 []).1
      ++ List.replicate (wrap_int (2 * (scan_arg false t 0 []).2)).toNat '\\', ?_, ?_, ?_⟩
  · rw [argv_to_string_single, quoted, hscan]
    simp only [hz]
    simp
  · rw [argv_to_string_single, quoted]
  · have hassoc : s ++ List.replicate n '\\' ++ '"' :: t
        = s ++ (List.replicate n '\\' ++ '"' :: t) := by simp
    have hw : wrap_int (0 + (n : Int)) = (n : Int) := by
      unfold wrap_int
      omega
    have hw1 : wrap_int (wrap_int (2 * (n : Int)) + 1) = ((2 * n + 1 : Nat) : Int) := by
      unfold wrap_int
      push_cast
      omega
    rw [argv_to_string_single, quoted, hassoc, scan_arg_append false s _ 0 [] hL, hscan,
      scan_arg_append false _ _ 0 _ hR, scan_arg_backslashes n 0 _ (by decide), hw,
      scan_arg_cons_emit false '"' t _ _ (by decide) (by decide)]
    simp only [or_true, if_true, hw1, emit_backslashes_natCast, Int.toNat_ofNat]
    rw [scan_arg_acc]
    simp

theorem argv_to_string_quote_escalation_witness :
    ∃ es et : List Char,
      argv_to_string ["say".toList] [] false = some ('"' :: (es ++ ['"']))
      ∧ argv_to_string ["hi\\".toList] [] false = some ('"' :: (et ++ ['"']))
      ∧ argv_to_string ["say".toList ++ List.replicate 2 '\\' ++ '"' :: "hi\\".toList] [] false
          = some ('"' :: ((es ++ List.replicate (2 * 2 + 1) '\\' ++ '"' :: et) ++ ['"'])) :=
  argv_to_string_quote_escalation "say".toList "hi\\".toList 2 (by decide) (Or.inr (by decide))
    (by decide) (by decide)

theorem length_ge_backslashes (n : Nat) (pre post : List Char) :
    n ≤ (pre ++ List.replicate n '\\' ++ post).length := by
  simp only [List.length_append, List.length_replicate]
  omega

/-- C14 (as stated, refuted): the argument made of `2^31` backslashes followed by `x` contains
no double quote and does not end in a backslash; its encoding is `"x"`, without the
backslashes (the counter `2^31` does not fit `int`, becomes negative, and nothing is
flushed). -/
theorem argv_to_string_path_backslashes_overflow :
    NUL ∉ List.replicate 2147483648 '\\' ++ ['x']
      ∧ '"' ∉ List.replicate 2147483648 '\\' ++ ['x']
      ∧ (List.replicate 2147483648 '\\' ++ ['x']).getLast? ≠ some '\\'
      ∧ argv_to_string [List.replicate 2147483648 '\\' ++ ['x']] [] false
          = some ['"', 'x', '"']
      ∧ argv_to_string [List.replicate 2147483648 '\\' ++ ['x']] [] false
          ≠ some ('"' :: ((List.replicate 2147483648 '\\' ++ ['x']) ++ ['"'])) := by
  have hR : ∀ c ∈ List.replicate 2147483648 '\\', c ≠ NUL := by
    intro c hc h
    exact NUL_not_mem_backslashes _ (h ▸ hc)
  have hw : wrap_int (0 + ((2147483648 : Nat) : Int)) = -2147483648 := by
    unfold wrap_int
    omega
  have hx : scan_arg false ['x'] (-2147483648) [] = (['x'], -2147483648) := by decide
  have hout : argv_to_string [List.replicate 2147483648 '\\' ++ ['x']] [] false
      = some ['"', 'x', '"'] := by
    rw [argv_to_string_single, quoted, scan_arg_append false _ _ 0 [] hR,
      scan_arg_backslashes 2147483648 0 [] (by decide), hw, hx]
    decide
  refine ⟨?_, ?_, ?_, hout, ?_⟩
  · intro h
    rcases List.mem_append.mp h with h1 | h1
    · exact NUL_not_mem_backslashes _ h1
    · exact absurd (List.mem_singleton.mp h1) (by decide)
  · intro h
    rcases List.mem_append.mp h with h1 | h1
    · exact absurd (List.eq_of_mem_replicate h1) (by decide)
    · exact absurd (List.mem_singleton.mp h1) (by decide)
  · rw [List.getLast?_concat]
    decide
  · rw [hout]
    intro h
    have h1 := length_ge_backslashes 2147483648 ['"'] ['x', '"']
    have h2 : ['"'] ++ List.replicate 2147483648 '\\' ++ ['x', '"']
        = '"' :: ((List.replicate 2147483648 '\\' ++ ['x']) ++ ['"']) := by
      rw [List.singleton_append, List.append_assoc, List.cons_append]
      rfl
    rw [h2, ← Option.some.inj h] at h1
    exact absurd h1 (by decide)

/-- C14 (amended): backslashes used as path separators are not doubled.  With
`escape_backslashes = false` and empty prefix, for every C string `arg` that contains no
double quote, does not end in a backslash and whose backslash runs fit the `int` counter (for
such an argument: every run is shorter than `2^31`), `argv_to_string [arg]` is a double quote,
`arg` unchanged, and a double quote. -/
theorem argv_to_string_path_backslashes (arg : List Char) (h0 : NUL ∉ arg) (hq : '"' ∉ arg)
    (hs : arg.getLast? ≠ some '\\') (hfit : runs_fit arg 0 = true) :
    argv_to_string [arg] [] false = some ('"' :: (arg ++ ['"'])) := by
  have h := scan_unbounded_no_quote arg 0 h0 hq
  have hp := (scan_unbounded_no_pending arg h0 (Or.inr hs)).1
  rw [hp] at h
  simp only [List.replicate_zero, List.append_nil, List.nil_append] at h
  rw [argv_to_string_single, quoted_eq_unbounded false arg (fun _ => hfit), quoted_unbounded_eq,
    hp, h]
  simp

theorem argv_to_string_path_backslashes_witness :
    argv_to_string ["C:\\Program Files\\x\\\\cl.exe".toList] [] false
      = some ('"' :: ("C:\\Program Files\\x\\\\cl.exe".toList ++ ['"'])) :=
  argv_to_string_path_backslashes "C:\\Program Files\\x\\\\cl.exe".toList
    (by decide) (by decide) (by decide) (by decide)

/-- C15: with `escape_backslashes = true` the state machine equals the naive character map.
For every C string `arg` and empty prefix, `argv_to_string [arg] "" true` is a double quote,
then `arg` with every backslash and every double quote preceded by one added backslash and
every other character copied, then a double quote. -/
theorem argv_to_string_escape_all (arg : List Char) (h0 : NUL ∉ arg) :
    argv_to_string [arg] [] true = some ('"' :: (escape_all arg ++ ['"'])) := by
  rw [argv_to_string_single, quoted_eq_unbounded true arg (fun h => absurd h (by decide)),
    quoted_unbounded_escape_all arg h0]

theorem argv_to_string_escape_all_witness :
    argv_to_string ["a\\\"b\\".toList] [] true
      = some ('"' :: (escape_all "a\\\"b\\".toList ++ ['"'])) :=
  argv_to_string_escape_all "a\\\"b\\".toList (by decide)

/-- C17 (as stated, refuted): with `escape_backslashes = false` the vector whose only argument
is `2^30` backslashes and the vector whose only argument is empty are both serialised as
`""`. -/
theorem argv_to_string_injective_overflow :
    [List.replicate 1073741824 '\\'] ≠ [] ∧ [([] : List Char)] ≠ []
      ∧ (∀ a ∈ [List.replicate 1073741824 '\\'], NUL ∉ a)
      ∧ (∀ a ∈ [([] : List Char)], NUL ∉ a)
      ∧ argv_to_string [List.replicate 1073741824 '\\'] [] false
          = argv_to_string [[]] [] false
      ∧ [List.replicate 1073741824 '\\'] ≠ [[]] := by
  refine ⟨List.cons_ne_nil _ _, List.cons_ne_nil _ _, ?_, by decide, ?_, ?_⟩
  · intro a ha
    rw [List.mem_singleton] at ha
    rw [ha]
    exact NUL_not_mem_backslashes _
  · rw [argv_to_string_single, quoted_overflow]
    decide
  · intro h
    have h1 := congrArg List.length (List.cons.inj h).1
    rw [List.length_replicate] at h1
    exact absurd h1 (by decide)

/-- C17 (amended): serialisation is injective.  For either fixed value of
`escape_backslashes` and empty prefix, for all non-empty argument vectors `u` and `v` of
C strings (no NUL) whose backslash runs, when `escape_backslashes` is false, fit the `int`
counter, `argv_to_string u = argv_to_string v` implies `u = v`. -/
theorem argv_to_string_injective (e : Bool) (u v : List (List Char))
    (hu : u ≠ []) (hv : v ≠ []) (hu0 : ∀ a ∈ u, NUL ∉ a) (hv0 : ∀ a ∈ v, NUL ∉ a)
    (hfit : e = false → ∀ a ∈ u ++ v, runs_fit a 0 = true)
    (h : argv_to_string u [] e = argv_to_string v [] e) : u = v := by
  cases u with
  | nil => exact absurd rfl hu
  | cons a as =>
    cases v with
    | nil => exact absurd rfl hv
    | cons b bs =>
      rw [argv_to_string_cons, argv_to_string_cons,
        map_quoted_eq_unbounded e (a :: as)
          (fun he x hx => hfit he x (List.mem_append_left _ hx)),
        map_quoted_eq_unbounded e (b :: bs)
          (fun he x hx => hfit he x (List.mem_append_right _ hx))] at h
      have hjoin := Option.some.inj h
      cases e with
      | false =>
        have hp := congrArg
          (fun cmd => CommandLine.parse_finish
            (List.foldl CommandLine.parse_step ⟨[], [], false, false, 0⟩ cmd)) hjoin
        simp only [parse_joined a as hu0 [], parse_joined b bs hv0 [], List.nil_append] at hp
        exact hp
      | true =>
        have hp := congrArg
          (fun cmd => (List.foldl CommandLine.unescape_step ⟨[], [], false, false⟩ cmd).args)
          hjoin
        simp only [unescape_joined a as hu0 [], unescape_joined b bs hv0 [],
          List.nil_append] at hp
        exact hp

theorem argv_to_string_injective_witness :
    argv_to_string ["a\\\" \"b".toList, []] [] false
        = argv_to_string [['a', '\\', '"', ' ', '"', 'b'], "".toList] [] false
      ∧ ["a\\\" \"b".toList, []] = [['a', '\\', '"', ' ', '"', 'b'], "".toList] :=
  ⟨by decide,
    argv_to_string_injective false ["a\\\" \"b".toList, []]
      [['a', '\\', '"', ' ', '"', 'b'], "".toList]
      (by decide) (by decide) (by decide) (by decide) (fun _ => by decide) (by decide)⟩

/-- Different vectors with the same characters give different command lines, with either value
of `escape_backslashes`. -/
theorem argv_to_string_samples_differ :
    [["a b".toList], ["a".toList, "b".toList], ["a\" \"b".toList], ["a\\".toList, "b".toList],
      ["a\\\" \"b".toList]].Pairwise
        (fun u v => argv_to_string u [] true ≠ argv_to_string v [] true
          ∧ argv_to_string u [] false ≠ argv_to_string v [] false) := by
  decide

/-- C16: the closing quote is never escaped.  For every argument `arg`, either value of
`escape_backslashes` and empty prefix, `argv_to_string [arg]` is some text `pre` followed by
a double quote, `pre` begins with a double quote, and the maximal run of backslashes at the
end of `pre`, the run immediately preceding the final double quote, has even length. -/
theorem argv_to_string_closing_quote_unescaped (arg : List Char) (e : Bool) :
    ∃ pre : List Char,
      argv_to_string [arg] [] e = some (pre ++ ['"'])
      ∧ pre.head? = some '"'
      ∧ trailing_backslashes pre % 2 = 0 := by
  refine ⟨(scan_arg e arg 0 ['"']).1
      ++ List.replicate (wrap_int (2 * (scan_arg e arg 0 ['"']).2)).toNat '\\', ?_, ?_, ?_⟩
  · rw [argv_to_string_single, quoted, scan_arg_acc e arg 0 ['"']]
    simp
  · rw [scan_arg_acc e arg 0 ['"']]
    simp
  · rw [trailing_backslashes_run]
    have h := scan_arg_even_run e arg 0 ['"'] (by decide) (fun _ => rfl)
    have h2 := wrap_int_double_even (scan_arg e arg 0 ['"']).2
    omega

/-- C18: the final one-character trim is safe.  Whenever the prefix is non-empty or `argv` has
at least one element, the loop runs on a first argument `arg` and remaining entries `rest`
(the prefix and `argv`, or `argv[0]` and `argv[1:]`), the string it builds has length at
least 3 and ends in a space, the returned string is that string without its last character,
so one character shorter and equal to it once a space is appended, and it is not empty. -/
theorem argv_to_string_trim_safe (argv : List (List Char)) (pfx : List Char) (e : Bool)
    (h : pfx ≠ [] ∨ argv ≠ []) :
    ∃ (arg : List Char) (rest : List (List Char)) (out : List Char),
      arg :: rest = (if pfx.isEmpty then argv else pfx :: argv)
      ∧ 3 ≤ (arg_loop e arg rest []).length
      ∧ (arg_loop e arg rest []).getLast? = some ' '
      ∧ argv_to_string argv pfx e = some out
      ∧ out ++ [' '] = arg_loop e arg rest []
      ∧ out.length = (arg_loop e arg rest []).length - 1
      ∧ out ≠ [] := by
  have key : ∀ (arg : List Char) (rest : List (List Char)),
      3 ≤ (arg_loop e arg rest []).length
      ∧ (arg_loop e arg rest []).getLast? = some ' '
      ∧ (arg_loop e arg rest []).dropLast ++ [' '] = arg_loop e arg rest []
      ∧ (arg_loop e arg rest []).dropLast.length = (arg_loop e arg rest []).length - 1
      ∧ (arg_loop e arg rest []).dropLast ≠ [] := by
    intro arg rest
    obtain ⟨body, hbody, hlen⟩ := arg_loop_ends_with_space e arg rest
    rw [hbody]
    refine ⟨by simp; omega, by simp, by simp, by simp, ?_⟩
    intro hnil
    simp only [List.dropLast_concat] at hnil
    rw [hnil] at hlen
    simp at hlen
  cases pfx with
  | cons c cs =>
    exact ⟨c :: cs, argv, _, by simp, (key _ _).1, (key _ _).2.1, by simp [argv_to_string],
      (key _ _).2.2.1, (key _ _).2.2.2.1, (key _ _).2.2.2.2⟩
  | nil =>
    cases argv with
    | nil => simp at h
    | cons a rest =>
      exact ⟨a, rest, _, by simp, (key _ _).1, (key _ _).2.1, by simp [argv_to_string],
        (key _ _).2.2.1, (key _ _).2.2.2.1, (key _ _).2.2.2.2⟩

theorem argv_to_string_trim_safe_witness :
    ∃ (arg : List Char) (rest : List (List Char)) (out : List Char),
      arg :: rest = (if ([] : List Char).isEmpty then [[]] else [] :: [[]])
      ∧ 3 ≤ (arg_loop false arg rest []).length
      ∧ (arg_loop false arg rest []).getLast? = some ' '
      ∧ argv_to_string [[]] [] false = some out
      ∧ out ++ [' '] = arg_loop false arg rest []
      ∧ out.length = (arg_loop false arg rest []).length - 1
      ∧ out ≠ [] :=
  argv_to_string_trim_safe [[]] [] false (Or.inr (by decide))

end Win32Util

/-! ## Claims about the compiler resolver and the argument splitter -/

namespace ccache

theorem filter_not_configured (configured_compiler : Option (List Char))
    (hcfg : configured_compiler = none ∨ configured_compiler = some []) :
    configured_compiler.filter (fun c => !c.isEmpty) = none := by
  rcases hcfg with h | h <;> subst h <;> rfl

theorem filter_configured (c : List Char) (hc : c ≠ []) :
    (some c).filter (fun c => !c.isEmpty) = some c := by
  cases c with
  | nil => exact absurd rfl hc
  | cons x xs => rfl

theorem scan_settings_eq (tokens : List (List Char)) :
    scan_settings tokens
      = (tokens.takeWhile is_config_setting, tokens.dropWhile is_config_setting) := by
  induction tokens with
  | nil => rfl
  | cons token rest ih =>
    by_cases h : is_config_setting token = true
    · simp [scan_settings, h, ih]
    · simp [scan_settings, h]

theorem dropWhile_eq_drop_takeWhile (tokens : List (List Char)) :
    tokens.dropWhile is_config_setting
      = tokens.drop (tokens.takeWhile is_config_setting).length := by
  induction tokens with
  | nil => rfl
  | cons x xs ih =>
    by_cases hx : is_config_setting x = true
    · simp [List.takeWhile_cons, List.dropWhile_cons, hx, ih]
    · simp [List.takeWhile_cons, List.dropWhile_cons, hx]

/-- C6: resolver failure condition in the wrapper branch.  For every non-empty invocation whose
element 0 contains no path separator, with `masquerading = false` and no (or an empty)
configured compiler: `resolve` fails if and only if `search` of element 0 is empty or is the
canonical name; an empty search result gives `CompilerNotFoundError`, the canonical name
gives `SelfLoopError`, and every other result replaces element 0 and leaves the later
elements unchanged. -/
theorem resolve_wrapper_bare_name (first : List Char) (args : List (List Char))
    (configured_compiler : Option (List Char)) (search : List Char → List Char)
    (hsep : has_path_separator first = false)
    (hcfg : configured_compiler = none ∨ configured_compiler = some []) :
    ((∃ err, resolve (first :: args) configured_compiler false search = .error err)
        ↔ (search first = [] ∨ search first = canonical_name))
      ∧ (search first = [] →
          resolve (first :: args) configured_compiler false search
            = .error .CompilerNotFoundError)
      ∧ (search first = canonical_name →
          resolve (first :: args) configured_compiler false search = .error .SelfLoopError)
      ∧ (search first ≠ [] → search first ≠ canonical_name →
          resolve (first :: args) configured_compiler false search
            = .ok (search first :: args)) := by
  have hres : resolve (first :: args) configured_compiler false search
      = if search first = canonical_name then .error .SelfLoopError
        else if search first = [] then .error .CompilerNotFoundError
        else .ok (search first :: args) := by
    simp [resolve, filter_not_configured configured_compiler hcfg, hsep]
  have hcanon : canonical_name ≠ [] := by decide
  rw [hres]
  refine ⟨?_, ?_, ?_, ?_⟩
  · by_cases h1 : search first = canonical_name
    · simp [h1]
    · by_cases h2 : search first = []
      · simp [h2, hcanon.symm]
      · simp [h1, h2]
  · intro h
    simp [h, hcanon.symm]
  · intro h
    simp [h]
  · intro h2 h1
    simp [h1, h2]

theorem resolve_wrapper_bare_name_witness :
    ((∃ err, resolve ["gcc".toList, "-c".toList] (some []) false
          (find_executable_stub (some "ccache".toList)) = .error err)
        ↔ (find_executable_stub (some "ccache".toList) "gcc".toList = []
            ∨ find_executable_stub (some "ccache".toList) "gcc".toList = canonical_name))
      ∧ (find_executable_stub (some "ccache".toList) "gcc".toList = [] →
          resolve ["gcc".toList, "-c".toList] (some []) false
              (find_executable_stub (some "ccache".toList))
            = .error .CompilerNotFoundError)
      ∧ (find_executable_stub (some "ccache".toList) "gcc".toList = canonical_name →
          resolve ["gcc".toList, "-c".toList] (some []) false
              (find_executable_stub (some "ccache".toList))
            = .error .SelfLoopError)
      ∧ (find_executable_stub (some "ccache".toList) "gcc".toList ≠ [] →
          find_executable_stub (some "ccache".toList) "gcc".toList ≠ canonical_name →
          resolve ["gcc".toList, "-c".toList] (some []) false
              (find_executable_stub (some "ccache".toList))
            = .ok (find_executable_stub (some "ccache".toList) "gcc".toList :: ["-c".toList])) :=
  resolve_wrapper_bare_name "gcc".toList ["-c".toList] (some [])
    (find_executable_stub (some "ccache".toList)) (by decide) (Or.inr rfl)

/-- C7: masquerading never trusts the supplied path.  For every non-empty invocation (element
0 a bare name, a relative path or an absolute path), with `masquerading = true` and no (or an
empty) configured compiler, `resolve` succeeds with element 0 replaced by `search` of the
basename of element 0 and all later elements unchanged; two invocations whose elements 0 have
the same basename and whose later elements agree resolve alike. -/
theorem resolve_masquerading_uses_basename (first : List Char) (args : List (List Char))
    (configured_compiler : Option (List Char)) (search : List Char → List Char)
    (hcfg : configured_compiler = none ∨ configured_compiler = some []) :
    resolve (first :: args) configured_compiler true search
        = .ok (search (base_name first) :: args)
      ∧ ∀ other : List Char, base_name other = base_name first →
          resolve (other :: args) configured_compiler true search
            = resolve (first :: args) configured_compiler true search := by
  have hres : ∀ f : List Char, resolve (f :: args) configured_compiler true search
      = .ok (search (base_name f) :: args) := by
    intro f
    simp [resolve, filter_not_configured configured_compiler hcfg]
  refine ⟨hres first, ?_⟩
  intro other hother
  rw [hres other, hres first, hother]

theorem resolve_masquerading_uses_basename_witness :
    resolve ["/some/path/gcc".toList, "-c".toList] none true (find_executable_stub none)
        = .ok (find_executable_stub none (base_name "/some/path/gcc".toList) :: ["-c".toList])
      ∧ ∀ other : List Char, base_name other = base_name "/some/path/gcc".toList →
          resolve (other :: ["-c".toList]) none true (find_executable_stub none)
            = resolve ["/some/path/gcc".toList, "-c".toList] none true
                (find_executable_stub none) :=
  resolve_masquerading_uses_basename "/some/path/gcc".toList ["-c".toList] none
    (find_executable_stub none) (Or.inl rfl)

/-- C8: explicit paths in a wrapper invocation are trusted as-is.  For every invocation whose
element 0 contains a path separator, with `masquerading = false` and no (or an empty)
configured compiler, `resolve` succeeds and returns the invocation unchanged for every search
capability, whatever it returns. -/
theorem resolve_wrapper_path_unchanged (first : List Char) (args : List (List Char))
    (configured_compiler : Option (List Char)) (search : List Char → List Char)
    (hsep : has_path_separator first = true)
    (hcfg : configured_compiler = none ∨ configured_compiler = some []) :
    resolve (first :: args) configured_compiler false search = .ok (first :: args) := by
  simp [resolve, filter_not_configured configured_compiler hcfg, hsep]

theorem resolve_wrapper_path_unchanged_witness :
    resolve ["/abs/gcc".toList, "-c".toList] none false (fun _ => canonical_name)
      = .ok ["/abs/gcc".toList, "-c".toList] :=
  resolve_wrapper_path_unchanged "/abs/gcc".toList ["-c".toList] none (fun _ => canonical_name)
    (by decide) (Or.inl rfl)

/-- C9: a configured compiler overrides element 0 in every mode.  For every non-empty
invocation, either value of `masquerading` and every non-empty configured compiler `c`,
`resolve` succeeds, element 0 of the result is `c` itself when `c` contains a path separator
and `search c` when it does not, and the later elements are unchanged; the result depends
neither on element 0 of the invocation nor on `masquerading`. -/
theorem resolve_configured_overrides (first : List Char) (args : List (List Char))
    (c : List Char) (masquerading : Bool) (search : List Char → List Char) (hc : c ≠ []) :
    resolve (first :: args) (some c) masquerading search
        = .ok ((if has_path_separator c then c else search c) :: args)
      ∧ ∀ (other : List Char) (m : Bool),
          resolve (other :: args) (some c) m search
            = resolve (first :: args) (some c) masquerading search := by
  have hres : ∀ (f : List Char) (m : Bool), resolve (f :: args) (some c) m search
      = .ok ((if has_path_separator c then c else search c) :: args) := by
    intro f m
    simp only [resolve, filter_configured c hc]
  refine ⟨hres first masquerading, ?_⟩
  intro other m
  rw [hres other m, hres first masquerading]

theorem resolve_configured_overrides_witness :
    resolve ["gcc".toList, "-c".toList] (some "clang".toList) true (find_executable_stub none)
        = .ok ((if has_path_separator "clang".toList then "clang".toList
                else find_executable_stub none "clang".toList) :: ["-c".toList])
      ∧ ∀ (other : List Char) (m : Bool),
          resolve (other :: ["-c".toList]) (some "clang".toList) m (find_executable_stub none)
            = resolve ["gcc".toList, "-c".toList] (some "clang".toList) true
                (find_executable_stub none) :=
  resolve_configured_overrides "gcc".toList ["-c".toList] "clang".toList true
    (find_executable_stub none) (by decide)

/-- C10: splitting partitions the arguments exactly.  For every `argv` whose element 0 has
basename equal to the canonical tool name, `split argv` has `masquerading_as_compiler = false`,
`configuration_settings` is the longest prefix of `argv[1:]` made of `key=value`-shaped tokens
(every token of it has the shape, and any prefix of `argv[1:]` whose tokens all have the shape
is a prefix of it), `compiler_invocation` is the remaining suffix verbatim (what is left when
that prefix is dropped; its first token, if any, does not have the shape), and
`configuration_settings` followed by `compiler_invocation` is `argv[1:]`. -/
theorem split_partitions (first : List Char) (rest : List (List Char))
    (hname : base_name first = canonical_name) :
    (split (first :: rest)).masquerading_as_compiler = false
      ∧ (∀ token ∈ (split (first :: rest)).configuration_settings,
          is_config_setting token = true)
      ∧ (∀ p : List (List Char), p <+: rest → (∀ token ∈ p, is_config_setting token = true) →
          p <+: (split (first :: rest)).configuration_settings)
      ∧ (split (first :: rest)).compiler_invocation
          = rest.drop (split (first :: rest)).configuration_settings.length
      ∧ (∀ token, (split (first :: rest)).compiler_invocation.head? = some token →
          is_config_setting token = false)
      ∧ (split (first :: rest)).configuration_settings
            ++ (split (first :: rest)).compiler_invocation
          = (first :: rest).tail := by
  have hsplit : split (first :: rest)
      = ⟨false, rest.takeWhile is_config_setting, rest.dropWhile is_config_setting⟩ := by
    simp [split, hname, scan_settings_eq]
  rw [hsplit]
  refine ⟨rfl, ?_, ?_, ?_, ?_, ?_⟩
  · intro token htoken
    exact List.mem_takeWhile_imp htoken
  · intro p hp hall
    obtain ⟨t, ht⟩ := hp
    subst ht
    clear hsplit
    induction p with
    | nil => exact List.nil_prefix
    | cons x xs ih =>
      have hx : is_config_setting x = true := hall x (by simp)
      simp only [List.cons_append, List.takeWhile_cons, hx, if_true]
      exact (List.cons_prefix_cons).mpr ⟨rfl, ih (fun token h => hall token (by simp [h]))⟩
  · exact dropWhile_eq_drop_takeWhile rest
  · intro token htoken
    simp only at htoken
    have h := List.head?_dropWhile_not is_config_setting rest
    rw [htoken] at h
    simpa using h
  · simp [List.takeWhile_append_dropWhile]

theorem split_partitions_witness :
    (split ("/bin/ccache".toList :: ["a=b".toList, "gcc".toList, "x=y".toList])).masquerading_as_compiler
        = false
      ∧ (∀ token ∈ (split ("/bin/ccache".toList
            :: ["a=b".toList, "gcc".toList, "x=y".toList])).configuration_settings,
          is_config_setting token = true)
      ∧ (∀ p : List (List Char), p <+: ["a=b".toList, "gcc".toList, "x=y".toList] →
          (∀ token ∈ p, is_config_setting token = true) →
          p <+: (split ("/bin/ccache".toList
            :: ["a=b".toList, "gcc".toList, "x=y".toList])).configuration_settings)
      ∧ (split ("/bin/ccache".toList
            :: ["a=b".toList, "gcc".toList, "x=y".toList])).compiler_invocation
          = ["a=b".toList, "gcc".toList, "x=y".toList].drop (split ("/bin/ccache".toList
            :: ["a=b".toList, "gcc".toList, "x=y".toList])).configuration_settings.length
      ∧ (∀ token, (split ("/bin/ccache".toList
            :: ["a=b".toList, "gcc".toList, "x=y".toList])).compiler_invocation.head?
            = some token → is_config_setting token = false)
      ∧ (split ("/bin/ccache".toList
            :: ["a=b".toList, "gcc".toList, "x=y".toList])).configuration_settings
            ++ (split ("/bin/ccache".toList
              :: ["a=b".toList, "gcc".toList, "x=y".toList])).compiler_invocation
          = ("/bin/ccache".toList :: ["a=b".toList, "gcc".toList, "x=y".toList]).tail :=
  split_partitions "/bin/ccache".toList ["a=b".toList, "gcc".toList, "x=y".toList] (by decide)

/-- The split of the witness above: the `key=value`-shaped token after `gcc` stays in the
compiler invocation. -/
theorem split_later_setting_stays :
    split ["/bin/ccache".toList, "a=b".toList, "gcc".toList, "x=y".toList]
      = ⟨false, ["a=b".toList], ["gcc".toList, "x=y".toList]⟩ := by
  decide

end ccache

/-! ## The models against the unit tests -/

namespace CommandLine

theorem parse_command_line_samples :
    parse_command_line "\"a\\\\\" \"b\\\"c\"".toList = ["a\\".toList, "b\"c".toList]
      ∧ parse_command_line "a\\\\b  \"\" \"c d\"e \\\\\\\"f\\".toList
          = ["a\\\\b".toList, [], "c de".toList, "\\\"f\\".toList] := by
  decide

end CommandLine

namespace ccache

/-- The cases of `TEST_CASE("split_argv")` (test_ccache.cpp lines 60-108). -/
theorem split_argv_test_cases :
    split [] = ⟨true, [], []⟩
      ∧ split ["ccache".toList] = ⟨false, [], []⟩
      ∧ split ["ccache".toList, "gcc".toList, "-c".toList, "test.c".toList]
          = ⟨false, [], ["gcc".toList, "-c".toList, "test.c".toList]⟩
      ∧ split ["ccache".toList, "foo=bar".toList] = ⟨false, ["foo=bar".toList], []⟩
      ∧ split ["ccache".toList, "a=b".toList, "c = d".toList, "/usr/bin/gcc".toList]
          = ⟨false, ["a=b".toList, "c = d".toList], ["/usr/bin/gcc".toList]⟩ := by
  decide

/-- The cases of `SUBCASE("no config")` (test_ccache.cpp lines 112-138). -/
theorem find_compiler_no_config_test_cases :
    helper true "gcc" "" none = .ok ["resolved_gcc".toList]
      ∧ helper true "relative/gcc" "" none = .ok ["resolved_gcc".toList]
      ∧ helper true "/absolute/gcc" "" none = .ok ["resolved_gcc".toList]
      ∧ helper false "gcc" "" none = .ok ["resolved_gcc".toList]
      ∧ helper false "rel/gcc" "" none = .ok ["rel/gcc".toList]
      ∧ helper false "/abs/gcc" "" none = .ok ["/abs/gcc".toList]
      ∧ helper false "gcc" "" (some "ccache") = .error .SelfLoopError
      ∧ helper false "rel/gcc" "" (some "ccache") = .ok ["rel/gcc".toList]
      ∧ helper false "/abs/gcc" "" (some "ccache") = .ok ["/abs/gcc".toList]
      ∧ helper false "gcc" "" (some "") = .error .CompilerNotFoundError
      ∧ helper false "rel/gcc" "" (some "") = .ok ["rel/gcc".toList]
      ∧ helper false "/abs/gcc" "" (some "") = .ok ["/abs/gcc".toList] := by
  decide

/-- The cases of `SUBCASE("config")` (test_ccache.cpp lines 140-162). -/
theorem find_compiler_config_test_cases :
    helper true "gcc" "config" none = .ok ["resolved_config".toList]
      ∧ helper true "gcc" "rel/config" none = .ok ["rel/config".toList]
      ∧ helper true "gcc" "/abs/config" none = .ok ["/abs/config".toList]
      ∧ helper true "rel/gcc" "config" none = .ok ["resolved_config".toList]
      ∧ helper true "rel/gcc" "rel/config" none = .ok ["rel/config".toList]
      ∧ helper true "rel/gcc" "/abs/config" none = .ok ["/abs/config".toList]
      ∧ helper true "/abs/gcc" "config" none = .ok ["resolved_config".toList]
      ∧ helper true "/abs/gcc" "rel/config" none = .ok ["rel/config".toList]
      ∧ helper true "/abs/gcc" "/abs/config" none = .ok ["/abs/config".toList]
      ∧ helper false "gcc" "config" none = .ok ["resolved_config".toList]
      ∧ helper false "gcc" "rel/config" none = .ok ["rel/config".toList]
      ∧ helper false "gcc" "/abs/config" none = .ok ["/abs/config".toList]
      ∧ helper false "rel/gcc" "config" none = .ok ["resolved_config".toList]
      ∧ helper false "/abs/gcc" "config" none = .ok ["resolved_config".toList] := by
  repeat' constructor

end ccache

/-! ## Further claims about the argument splitter -/

namespace ccache

/-- C11: masquerading split.  For every `argv` that is empty or whose element 0 has a basename
different from the canonical tool name, `split argv` has `masquerading_as_compiler = true`,
empty `configuration_settings` and `compiler_invocation = argv`; and for every `argv`,
`configuration_settings` is non-empty only when `masquerading_as_compiler` is false. -/
theorem split_masquerading (argv : List (List Char))
    (h : ∀ first ∈ argv.head?, base_name first ≠ canonical_name) :
    split argv = ⟨true, [], argv⟩
      ∧ ∀ v : List (List Char),
          (split v).configuration_settings ≠ [] → (split v).masquerading_as_compiler = false := by
  constructor
  · cases argv with
    | nil => rfl
    | cons first rest =>
      have hne : base_name first ≠ canonical_name := h first (by simp)
      simp [split, hne]
  · intro v hv
    cases v with
    | nil => simp [split] at hv
    | cons first rest =>
      by_cases hname : base_name first = canonical_name
      · simp [split, hname]
      · simp [split, hname] at hv

theorem split_masquerading_witness :
    split ["/usr/lib/ccache/gcc".toList, "a=b".toList, "-c".toList]
        = ⟨true, [], ["/usr/lib/ccache/gcc".toList, "a=b".toList, "-c".toList]⟩
      ∧ ∀ v : List (List Char),
          (split v).configuration_settings ≠ [] → (split v).masquerading_as_compiler = false :=
  split_masquerading ["/usr/lib/ccache/gcc".toList, "a=b".toList, "-c".toList] (by decide)

end ccache

/-! ## Claims about the compiler classifier -/

namespace ccache

theorem contains_text_mem (needle text : List Char) (h : contains_text needle text = true) :
    ∀ c ∈ needle, c ∈ text := by
  simp only [contains_text, List.any_eq_true, List.mem_tails, List.isPrefixOf_iff_prefix] at h
  obtain ⟨t, ht, hpre⟩ := h
  intro c hc
  exact ht.subset (hpre.subset hc)

theorem version_suffix_no_clang (stem v : List Char) (hstem : 'l' ∉ stem)
    (hv : is_version_suffix v = true) :
    contains_text "clang".toList (stem ++ v) = false := by
  cases hc : contains_text "clang".toList (stem ++ v) with
  | false => rfl
  | true =>
    exfalso
    have hl : 'l' ∈ stem ++ v := contains_text_mem _ _ hc 'l' (by decide)
    rcases List.mem_append.mp hl with h | h
    · exact hstem h
    · cases v with
      | nil => simp at h
      | cons d w =>
        by_cases hd : d = '-'
        · subst hd
          simp only [is_version_suffix, Bool.and_eq_true, List.all_eq_true] at hv
          rcases List.mem_cons.mp h with h1 | h1
          · exact absurd h1 (by decide)
          · exact absurd (hv.2 'l' h1) (by decide)
        · have : is_version_suffix (d :: w) = false := by
            unfold is_version_suffix
            split
            · rename_i heq
              exact absurd (List.cons.inj heq).1 hd
            · rfl
          rw [this] at hv
          exact absurd hv (by decide)

theorem gcc_version_style (v : List Char) (hv : is_version_suffix v = true) :
    is_gcc_style ("gcc".toList ++ v) = true ∧ is_gcc_style ("g++".toList ++ v) = true := by
  constructor
  · have h1 : ("gcc".toList).isPrefixOf ("gcc".toList ++ v) = true := by
      rw [List.isPrefixOf_iff_prefix]
      exact List.prefix_append _ _
    have h2 : ("gcc".toList ++ v).drop 3 = v := rfl
    simp [is_gcc_style, h1, h2, hv]
  · have h1 : ("g++".toList).isPrefixOf ("g++".toList ++ v) = true := by
      rw [List.isPrefixOf_iff_prefix]
      exact List.prefix_append _ _
    have h2 : ("g++".toList ++ v).drop 3 = v := rfl
    simp [is_gcc_style, h1, h2, hv]

theorem classify_name_clang (name : List Char)
    (hc : contains_text "clang".toList name = true) :
    classify_name name = some .clang := by
  unfold classify_name
  rw [if_pos hc]

theorem classify_name_gcc (name : List Char)
    (hc : contains_text "clang".toList name = false) (hg : is_gcc_style name = true) :
    classify_name name = some .gcc := by
  unfold classify_name
  rw [if_neg (by rw [hc]; decide), if_pos hg]

theorem classify_name_nvcc (name : List Char)
    (hc : contains_text "clang".toList name = false) (hg : is_gcc_style name = false)
    (hn : contains_text "nvcc".toList name = true) :
    classify_name name = some .nvcc := by
  unfold classify_name
  rw [if_neg (by rw [hc]; decide), if_neg (by rw [hg]; decide), if_pos hn]

theorem is_gcc_style_of_contains (name : List Char)
    (hg : contains_text "gcc".toList name = true) : is_gcc_style name = true := by
  unfold is_gcc_style
  rw [hg, Bool.or_true]

theorem classify_no_link (path : List Char) (max_hops : Nat) :
    classify path (fun _ => none) max_hops
      = (classify_name (util.to_lowercase (base_name path))).getD .other := by
  unfold classify
  cases classify_name (util.to_lowercase (base_name path)) <;> rfl

theorem classify_name_unmatched (name : List Char)
    (hc : contains_text "clang".toList name = false) (hg : is_gcc_style name = false)
    (hn : contains_text "nvcc".toList name = false) :
    classify_name name = none := by
  unfold classify_name
  rw [if_neg (by rw [hc]; decide), if_neg (by rw [hg]; decide), if_neg (by rw [hn]; decide)]

/-- C12 (as stated, refuted): the rules are ordered, so a name matching two patterns takes the
family of the first.  The basename `nvcc_clang` contains `nvcc` and classifies as clang, the
basename `nvcc-gcc` contains `nvcc` and classifies as gcc, and the basename
`x86_64-clang-gcc` contains `gcc` and classifies as clang. -/
theorem classify_nvcc_clang_is_clang :
    (contains_text "nvcc".toList (util.to_lowercase (base_name "/test/prefix/nvcc_clang".toList))
        = true
      ∧ classify "/test/prefix/nvcc_clang".toList (fun _ => none) 8 = .clang
      ∧ classify "/test/prefix/nvcc_clang".toList (fun _ => none) 8 ≠ .nvcc)
    ∧ (contains_text "nvcc".toList (util.to_lowercase (base_name "/test/prefix/nvcc-gcc".toList))
        = true
      ∧ classify "/test/prefix/nvcc-gcc".toList (fun _ => none) 8 = .gcc
      ∧ classify "/test/prefix/nvcc-gcc".toList (fun _ => none) 8 ≠ .nvcc)
    ∧ (contains_text "gcc".toList
          (util.to_lowercase (base_name "/test/prefix/x86_64-clang-gcc".toList)) = true
      ∧ classify "/test/prefix/x86_64-clang-gcc".toList (fun _ => none) 8 = .clang
      ∧ classify "/test/prefix/x86_64-clang-gcc".toList (fun _ => none) 8 ≠ .gcc) := by
  decide

/-- C12 (amended): classification by name when the path is not a symlink (`read_link` returns
none), for every bound on the hops.  Writing `name` for the lower-cased basename of `path`:
if `name` contains `clang` the family is clang; if `name` is `gcc`, `g++`, or one of them
followed by a version suffix, the family is gcc; if `name` contains `gcc` and does not contain
`clang` the family is gcc; if `name` contains `nvcc`, does not contain `clang` and does not
match the GCC-style pattern, the family is nvcc; if `name` is `cc` or `c++`, or is any other
unrecognised name (it contains neither `clang` nor `nvcc` and does not match the GCC-style
pattern), such as `x`, the family is other; and every path with the same basename has the
same family. -/
theorem classify_by_name (path : List Char) (max_hops : Nat) :
    (contains_text "clang".toList (util.to_lowercase (base_name path)) = true →
        classify path (fun _ => none) max_hops = .clang)
      ∧ (util.to_lowercase (base_name path) = "gcc".toList
          ∨ util.to_lowercase (base_name path) = "g++".toList
          ∨ (∃ v, is_version_suffix v = true
              ∧ (util.to_lowercase (base_name path) = "gcc".toList ++ v
                ∨ util.to_lowercase (base_name path) = "g++".toList ++ v)) →
        classify path (fun _ => none) max_hops = .gcc)
      ∧ (contains_text "gcc".toList (util.to_lowercase (base_name path)) = true →
          contains_text "clang".toList (util.to_lowercase (base_name path)) = false →
        classify path (fun _ => none) max_hops = .gcc)
      ∧ (contains_text "nvcc".toList (util.to_lowercase (base_name path)) = true →
          contains_text "clang".toList (util.to_lowercase (base_name path)) = false →
          is_gcc_style (util.to_lowercase (base_name path)) = false →
        classify path (fun _ => none) max_hops = .nvcc)
      ∧ (util.to_lowercase (base_name path) = "cc".toList
          ∨ util.to_lowercase (base_name path) = "c++".toList
          ∨ util.to_lowercase (base_name path) = "x".toList →
        classify path (fun _ => none) max_hops = .other)
      ∧ (contains_text "clang".toList (util.to_lowercase (base_name path)) = false →
          is_gcc_style (util.to_lowercase (base_name path)) = false →
          contains_text "nvcc".toList (util.to_lowercase (base_name path)) = false →
        classify path (fun _ => none) max_hops = .other)
      ∧ (∀ other_path : List Char, base_name other_path = base_name path →
        classify other_path (fun _ => none) max_hops
          = classify path (fun _ => none) max_hops) := by
  refine ⟨?_, ?_, ?_, ?_, ?_, ?_, ?_⟩
  · intro h
    rw [classify_no_link, classify_name_clang _ h]
    rfl
  · intro h
    rw [classify_no_link]
    rcases h with h | h | ⟨v, hv, h | h⟩
    · rw [h]
      decide
    · rw [h]
      decide
    · rw [h, classify_name_gcc _ (version_suffix_no_clang "gcc".toList v (by decide) hv)
        (gcc_version_style v hv).1]
      rfl
    · rw [h, classify_name_gcc _ (version_suffix_no_clang "g++".toList v (by decide) hv)
        (gcc_version_style v hv).2]
      rfl
  · intro hg hc
    rw [classify_no_link, classify_name_gcc _ hc (is_gcc_style_of_contains _ hg)]
    rfl
  · intro hn hc hg
    rw [classify_no_link, classify_name_nvcc _ hc hg hn]
    rfl
  · intro h
    rw [classify_no_link]
    rcases h with h | h | h <;> rw [h] <;> decide
  · intro hc hg hn
    rw [classify_no_link, classify_name_unmatched _ hc hg hn]
    rfl
  · intro other_path h
    rw [classify_no_link, classify_no_link, h]

theorem classify_by_name_witness :
    classify "/opt/cross/X86_64-w64-mingw32-GCC-posix".toList (fun _ => none) 8 = .gcc
      ∧ classify "/usr/local/bin/Ld.Gold".toList (fun _ => none) 8 = .other :=
  ⟨(classify_by_name "/opt/cross/X86_64-w64-mingw32-GCC-posix".toList 8).2.2.1
      (by decide) (by decide),
    (classify_by_name "/usr/local/bin/Ld.Gold".toList 8).2.2.2.2.2.1
      (by decide) (by decide) (by decide)⟩

/-- The cases of `SUBCASE("Compiler not in file system")` (test_ccache.cpp lines 169-189). -/
theorem guess_compiler_test_cases :
    ["/test/prefix/clang", "/test/prefix/clang-3.8", "/test/prefix/clang++",
        "/test/prefix/clang++-10", "/test/prefix/gcc", "/test/prefix/gcc-4.8",
        "/test/prefix/g++", "/test/prefix/g++-9", "/test/prefix/x86_64-w64-mingw32-gcc-posix",
        "/test/prefix/nvcc", "/test/prefix/nvcc-10.1.243", "/test/prefix/x", "/test/prefix/cc",
        "/test/prefix/c++"].map (fun p => classify p.toList (fun _ => none) 8)
      = [.clang, .clang, .clang, .clang, .gcc, .gcc, .gcc, .gcc, .gcc, .nvcc, .nvcc, .other,
          .other, .other] := by
  decide

/-- The case of `SUBCASE("Follow symlink to actual compiler")` (test_ccache.cpp lines 192-201):
`cc` links to `intermediate`, which links to the file `gcc`. -/
theorem guess_compiler_symlink_test_case :
    classify "/cwd/cc".toList
        (fun p => if p = "/cwd/cc".toList then some "/cwd/intermediate".toList
          else if p = "/cwd/intermediate".toList then some "/cwd/gcc".toList else none) 8
      = .gcc := by
  decide

end ccache

/-! ## Claims about `Win32Util::add_exe_suffix` -/

namespace Win32Util

/-- The extension of a path that ends in a dot followed by letters is that ending. -/
theorem get_extension_append_exe (path : List Char) :
    Util.get_extension (path ++ ".exe".toList) = ".exe".toList := by
  have hrev : (path ++ ".exe".toList).reverse = 'e' :: 'x' :: 'e' :: '.' :: path.reverse := by
    simp
  rw [Util.get_extension, hrev]
  simp [Util.extension_scan, Util.is_dir_separator]

/-- C19: `add_exe_suffix` is idempotent and only ever appends.  For every path `p`,
`add_exe_suffix p` is `p` or `p` followed by `.exe`; it is `p` exactly when the lower-cased
extension of `p` is `.exe`, `.bat` or `.sh`; and applying `add_exe_suffix` twice gives the
same as applying it once. -/
theorem add_exe_suffix_idempotent (p : List Char) :
    (add_exe_suffix p = p ∨ add_exe_suffix p = p ++ ".exe".toList)
      ∧ (add_exe_suffix p = p ↔
          (util.to_lowercase (Util.get_extension p) = ".exe".toList
            ∨ util.to_lowercase (Util.get_extension p) = ".bat".toList
            ∨ util.to_lowercase (Util.get_extension p) = ".sh".toList))
      ∧ add_exe_suffix (add_exe_suffix p) = add_exe_suffix p := by
  by_cases h : util.to_lowercase (Util.get_extension p) = ".exe".toList
      ∨ util.to_lowercase (Util.get_extension p) = ".bat".toList
      ∨ util.to_lowercase (Util.get_extension p) = ".sh".toList
  · have hp : add_exe_suffix p = p := by
      unfold add_exe_suffix
      exact if_pos h
    exact ⟨Or.inl hp, ⟨fun _ => h, fun _ => hp⟩, by rw [hp, hp]⟩
  · have hp : add_exe_suffix p = p ++ ".exe".toList := by
      unfold add_exe_suffix
      exact if_neg h
    refine ⟨Or.inr hp, ⟨fun heq => ?_, fun h' => absurd h' h⟩, ?_⟩
    · rw [hp] at heq
      have hlen := congrArg List.length heq
      simp at hlen
    · rw [hp]
      unfold add_exe_suffix
      rw [get_extension_append_exe]
      exact if_pos (Or.inl (by decide))

/-- Sample values of `add_exe_suffix`: the comparison ignores case, and a dot in a directory
name is not an extension. -/
theorem add_exe_suffix_samples :
    ["gcc", "gcc.EXE", "run.bat", "configure.sh", "C:\\tools.d\\cl", "a.b/c", "x.", ".sh"].map
        (fun p => String.mk (add_exe_suffix p.toList))
      = ["gcc.exe", "gcc.EXE", "run.bat", "configure.sh", "C:\\tools.d\\cl.exe", "a.b/c.exe",
          "x..exe", ".sh"] := by
  decide

end Win32Util
